import Mathlib

/-!
Verification of the GPS navigation system (gps_navigation.py).

The development shallowly embeds the Python code: the adjacency structure
(a defaultdict of lists) becomes an association list preserving insertion
order, Python floats become rationals (float('infinity') becomes the top
element of WithTop Rat), the binary heap of heapq becomes a list kept sorted
by the tuple order on (distance, node) (faithful to heapq because heappop
returns the minimum entry under exactly that order, and the algorithm never
holds two identical entries: repeated pushes for one node carry strictly
decreasing distances), and a Python runtime error (an uncaught KeyError from
a dict lookup, a TypeError from adding None, or non-termination of the
reconstruction while-loop) becomes the value none of an Option result.
Logging lines printed only under verbose=True are pure I/O and are omitted;
the steps list, which is built unconditionally and whose name lookups can
raise, is modelled faithfully including those lookups.
-/

/- Core marks the Rat arithmetic irreducible (it has native implementations);
proofs below evaluate concrete navigator runs by reduction, so restore the
ordinary unfolding behavior. This changes elaboration only; the kernel never
consults reducibility attributes. -/
set_option allowUnsafeReducibility true
attribute [semireducible] Rat.add Rat.ofScientific Rat.mul Rat.div Rat.sub
  Rat.neg Rat.inv

namespace GPS

abbrev Node := Nat

/-- Adjacency structure: node -> list of (neighbor, weight) pairs, as an
association list whose key order models Python dict insertion order. -/
abbrev Graph := List (Node × List (Node × ℚ))

/-- The keys of the adjacency dict. -/
def keysOf (g : Graph) : List Node := g.map Prod.fst

/-- Reading self.graph[n]: a defaultdict read returns the stored list, or the
empty list when the key is absent. (The defaultdict also inserts the empty
list on a miss; within one query no later read observes that insertion, so
the read is modelled as pure.) -/
def adjOf (g : Graph) (n : Node) : List (Node × ℚ) :=
  ((g.find? (fun p => p.1 == n)).map Prod.snd).getD []

/-- Appending one entry to the adjacency list of a: self.graph[a].append(e). -/
def appendEdge (g : Graph) (a : Node) (e : Node × ℚ) : Graph :=
  if g.any (fun p => p.1 == a) then
    g.map (fun p => if p.1 == a then (p.1, p.2 ++ [e]) else p)
  else
    g ++ [(a, [e])]

/-- The navigator object: adjacency graph, node coordinates (used only for
plotting) and the node id -> display name dict. -/
structure GPSNavigator where
  graph : Graph
  coordinates : List (Node × (ℚ × ℚ))
  node_names : List (Node × String)
deriving Repr

/-- add_road(from_node, to_node, distance): appends (to,d) to from's list and
(from,d) to to's list, with no validation of the weight. -/
def add_road (nav : GPSNavigator) (from_node to_node : Node) (distance : ℚ) :
    GPSNavigator :=
  let g := appendEdge (appendEdge nav.graph from_node (to_node, distance))
    to_node (from_node, distance)
  { nav with graph := g }

/-- The location table of setup_city_map: (name, coordinates), indexed 0..11. -/
def locations : List (String × (ℚ × ℚ)) :=
  [("Main St & 1st Ave", (1, 5)),
   ("Park Rd & 2nd Ave", (3, 5.2)),
   ("Oak St & 3rd Ave", (5, 5.1)),
   ("Elm St & 1st Ave", (1.2, 4)),
   ("Pine St & 2nd Ave", (3.1, 3.8)),
   ("Maple St & 3rd Ave", (5.2, 4.1)),
   ("Broadway & 1st Ave", (1.1, 2.5)),
   ("Center St & 2nd Ave", (3.2, 2.3)),
   ("Hill Rd & 3rd Ave", (5.3, 2.6)),
   ("River St & 1st Ave", (1.3, 1)),
   ("Lake Ave & 2nd Ave", (3.5, 0.8)),
   ("Mountain Rd & 3rd Ave", (5.4, 1.1))]

/-- The road list of setup_city_map. -/
def connections : List (Node × Node × ℚ) :=
  [(0, 1, 2.1), (1, 2, 1.9), (0, 3, 1.2), (1, 4, 1.4),
   (2, 5, 1.3), (3, 4, 1.9), (4, 5, 2.1), (3, 6, 1.5),
   (4, 7, 1.7), (5, 8, 1.4), (6, 7, 1.8), (7, 8, 2.0),
   (6, 9, 1.6), (7, 10, 1.9), (8, 11, 1.5), (9, 10, 2.2),
   (10, 11, 1.8), (1, 7, 3.2), (4, 10, 3.5), (0, 6, 4.1),
   (2, 8, 3.8), (5, 11, 3.3)]

/-- The navigator state right after filling the name and coordinate tables
in setup_city_map, before any edge is added. -/
def initialNavigator : GPSNavigator :=
  { graph := []
    coordinates := (locations.enum.map (fun p => (p.1, p.2.2)))
    node_names := (locations.enum.map (fun p => (p.1, p.2.1))) }

/-- GPSNavigator.__init__ together with setup_city_map: node names and
coordinates from the location table, then every connection added through
add_road. -/
def baseNavigator : GPSNavigator :=
  connections.foldl (fun nav c => add_road nav c.1 c.2.1 c.2.2) initialNavigator

/-- A navigator as the program can produce one: the constructor (which builds
the city map) followed by any sequence of add_road calls. -/
def mkNavigator (roads : List (Node × Node × ℚ)) : GPSNavigator :=
  roads.foldl (fun nav c => add_road nav c.1 c.2.1 c.2.2) baseNavigator

/-- Reading self.node_names[n] on a plain dict: some name, or none for the
KeyError. -/
def lookupName (nav : GPSNavigator) (n : Node) : Option String :=
  ((nav.node_names.find? (fun p => p.1 == n)).map Prod.snd)

/-- calculate_route_time(distance_km, avg_speed_kmh) = (d / s) * 60, with no
validation: division by a zero speed raises ZeroDivisionError (modelled as
none); any other speed, including a negative one, is accepted silently. -/
def calculate_route_time (distance_km avg_speed_kmh : ℚ) : Option ℚ :=
  if avg_speed_kmh = 0 then none else some (distance_km / avg_speed_kmh * 60)

/-- Python's format f-string with one decimal place applied to a rational,
rounding half away from zero (Python rounds the decimal expansion of the
binary float half to even; no claim inspects a value where the two differ). -/
def fmt1 (q : ℚ) : String :=
  let s := q * 10
  let n : Int := Int.fdiv (2 * s.num + (s.den : Int)) (2 * (s.den : Int))
  let m := n.natAbs
  (if n < 0 then "-" else "") ++ toString (m / 10) ++ "." ++ toString (m % 10)

/-- First matching weight for the pair (a, b) in a's adjacency list; the
linear scan of get_turn_by_turn_directions, none when no entry matches. -/
def findWeight (g : Graph) (a b : Node) : Option ℚ :=
  (((adjOf g a).find? (fun e => e.1 == b)).map Prod.snd)

/-- One iteration of the direction loop per consecutive pair, carrying the
running index i; lastIx = len(path) - 2 selects the Arrive wording. A missing
edge weight is a TypeError when added to the running total (none), a missing
node name is a KeyError in the f-string (none). -/
def dirGo (nav : GPSNavigator) (lastIx : Nat) :
    List (Node × Node) → Nat → Option (List String)
  | [], _ => some []
  | (cur, nxt) :: rest, i =>
    match findWeight nav.graph cur nxt with
    | none => none
    | some d =>
      let startLines : Option (List String) :=
        if i = 0 then
          (lookupName nav cur).map (fun nm => ["1. Start at " ++ nm])
        else some []
      match startLines with
      | none => none
      | some sl =>
        match lookupName nav nxt with
        | none => none
        | some nm2 =>
          let line := toString (i + 2) ++ ". " ++
            (if i = lastIx then "Arrive at " else "Continue to ") ++
            nm2 ++ " (" ++ fmt1 d ++ "km)"
          (dirGo nav lastIx rest (i + 1)).map (fun ls => sl ++ line :: ls)

/-- get_turn_by_turn_directions(path): empty for fewer than two nodes,
otherwise one numbered instruction per loop iteration plus the leading
Start line. -/
def get_turn_by_turn_directions (nav : GPSNavigator) (path : List Node) :
    Option (List String) :=
  if path.length < 2 then some []
  else dirGo nav (path.length - 2) (path.zip path.tail) 0

/-! The priority queue of heapq, modelled as a list kept sorted under the
tuple order on (distance, node). -/

/-- Tuple comparison used by heapq on (distance, node) pairs. -/
def qle (a b : ℚ × Node) : Prop :=
  a.1 < b.1 ∨ (a.1 = b.1 ∧ a.2 ≤ b.2)

instance (a b : ℚ × Node) : Decidable (qle a b) := by
  unfold qle; exact inferInstance

/-- heappush: insert keeping the list sorted. -/
def qInsert (e : ℚ × Node) : List (ℚ × Node) → List (ℚ × Node)
  | [] => [e]
  | x :: xs => if qle e x then e :: x :: xs else x :: qInsert e xs

/-- Reading previous.get(n). -/
def lookupKey (l : List (Node × Node)) (n : Node) : Option Node :=
  (l.find? (fun p => p.1 == n)).map Prod.snd

/-- Writing previous[n] = m on a plain dict. -/
def setKey (l : List (Node × Node)) (n m : Node) : List (Node × Node) :=
  if l.any (fun p => p.1 == n) then
    l.map (fun p => if p.1 == n then (n, m) else p)
  else l ++ [(n, m)]

/-- The mutable state of one dijkstra call: the distances dict (as a total
function, reads guarded by the key list dom), the previous dict, the visited
set (as a list in insertion order), the heap, and the steps log. -/
structure St where
  dist : Node → WithTop ℚ
  prev : List (Node × Node)
  visited : List Node
  queue : List (ℚ × Node)
  steps : List String

/-- The result dict of dijkstra. -/
structure Result where
  path : List Node
  distance : WithTop ℚ
  visited : List Node
  steps : List String
  success : Bool

/-- The neighbor loop of dijkstra: for (neighbor, road_distance) in
self.graph[current_node], skipping visited neighbors, relaxing on strict
improvement; reading distances[neighbor] off the dict raises KeyError when
the neighbor is not a key (none), as does node_names[neighbor] inside the
appended step line. -/
def relaxList (nav : GPSNavigator) (dom : List Node) (c : ℚ) (cur : Node) :
    List (Node × ℚ) → St → Option St
  | [], st => some st
  | (nb, w) :: rest, st =>
    if nb ∈ st.visited then relaxList nav dom c cur rest st
    else
      if nb ∈ dom then
        let nd := c + w
        if (nd : WithTop ℚ) < st.dist nb then
          match lookupName nav nb with
          | none => none
          | some nm =>
            relaxList nav dom c cur rest
              { dist := fun x => if x = nb then (nd : WithTop ℚ) else st.dist x
                prev := setKey st.prev nb cur
                visited := st.visited
                queue := qInsert (nd, nb) st.queue
                steps := st.steps ++
                  ["  → Updated route to " ++ nm ++ ": " ++ fmt1 nd ++ "km"] }
        else relaxList nav dom c cur rest st
      else none

/-- The state after visited.add(n) and the pop of its queue entry, with an
arbitrary new steps log. -/
def visitState (st : St) (n : Node) (rest : List (ℚ × Node))
    (steps2 : List String) : St :=
  { st with
    visited := st.visited ++ [n]
    queue := rest
    steps := steps2 }

/-- The main while-loop of dijkstra. Fuel only instruments termination; an
exhausted fuel (none) never occurs at the call site fuel for a run that the
Python loop finishes, and the theorems below are conditional on completion.
The two genuine exits are the empty heap and the break after popping the
destination. -/
def dijkstraLoop (nav : GPSNavigator) (en : Node) (dom : List Node) :
    Nat → St → Option St
  | 0, _ => none
  | fuel + 1, st =>
    match st.queue with
    | [] => some st
    | (c, n) :: rest =>
      if n ∈ st.visited then
        dijkstraLoop nav en dom fuel { st with queue := rest }
      else
        match lookupName nav n with
        | none => none
        | some nm =>
          if n = en then
            some (visitState st n rest ((st.steps ++
              ["Exploring " ++ nm ++ " (Distance: " ++ fmt1 c ++ "km)"]) ++
              ["✅ Reached destination: " ++ nm]))
          else
            match relaxList nav dom c n (adjOf nav.graph n)
              (visitState st n rest (st.steps ++
                ["Exploring " ++ nm ++ " (Distance: " ++ fmt1 c ++ "km)"])) with
            | none => none
            | some st2 => dijkstraLoop nav en dom fuel st2

/-- Path reconstruction: current = end; while current is not None: append;
current = previous.get(current). A predecessor cycle makes the Python loop
run forever; the fuel bound prev.length + 2 exceeds the length of any
terminating chain, so exhaustion (none) models exactly that divergence. -/
def walkPrev (prev : List (Node × Node)) : Nat → Node → Option (List Node)
  | 0, _ => none
  | fuel + 1, cur =>
    match lookupKey prev cur with
    | none => some [cur]
    | some m => (walkPrev prev fuel m).map (fun l => cur :: l)

/-- Fuel sufficient for the main loop (proved below): one iteration per heap
pop, at most one pop per initial entry plus one per push, and each node is
relaxed at most once per neighbor list entry. -/
def dijkstraFuel (g : Graph) (dom : List Node) : Nat :=
  1 + (dom.map (fun n => 1 + (adjOf g n).length)).sum

/-- The key list of the distances dict: the graph keys, with start appended
when absent (distances[start] = 0 inserts it). -/
def domOf (g : Graph) (start : Node) : List Node :=
  if start ∈ keysOf g then keysOf g else keysOf g ++ [start]

/-- The initial distances: 0 for start, infinity for every other node (reads
of the dict are guarded by domOf). -/
def distInit (start : Node) : Node → WithTop ℚ :=
  fun n => if n = start then ((0 : ℚ) : WithTop ℚ) else ⊤

/-- The three step lines appended before the loop; building the first two
requires the name lookups that raise for unnamed nodes. -/
def initSteps (sName eName : String) : List String :=
  ["Starting navigation from " ++ sName,
   "Destination: " ++ eName,
   "Initializing distances: Start=0km, Others=∞"]

/-- dijkstra(start, end) with the default verbose=False. The two name
lookups before the loop model the f-strings appended to steps; either
failing is the KeyError the Python call raises for a node outside the named
map. The final distances[end] read is guarded by the key set dom exactly as
the dict lookup is. -/
def dijkstra (nav : GPSNavigator) (start en : Node) : Option Result :=
  match lookupName nav start, lookupName nav en with
  | some sName, some eName =>
    match dijkstraLoop nav en (domOf nav.graph start)
        (dijkstraFuel nav.graph (domOf nav.graph start))
        ⟨distInit start, [], [], [(0, start)], initSteps sName eName⟩ with
    | none => none
    | some st =>
      match walkPrev st.prev (st.prev.length + 2) en with
      | none => none
      | some revPath =>
        if revPath.reverse.head? = some start then
          if en ∈ domOf nav.graph start then
            some ⟨revPath.reverse, st.dist en, st.visited, st.steps, true⟩
          else none
        else some ⟨[], ⊤, st.visited, st.steps, false⟩
  | _, _ => none

/-! Semantics of paths in the adjacency structure. -/

/-- A node sequence is a walk of the given total cost when each consecutive
pair is an edge recorded in the adjacency list of its first component, with
the matching weights summing to the cost. -/
inductive PathCost (g : Graph) : List Node → ℚ → Prop
  | single (a : Node) : PathCost g [a] 0
  | cons {a b : Node} {w c : ℚ} {rest : List Node} :
      (b, w) ∈ adjOf g a → PathCost g (b :: rest) c →
      PathCost g (a :: b :: rest) (w + c)

/-- b can be reached from a: some walk leads from a to b. -/
def Reachable (g : Graph) (a b : Node) : Prop :=
  ∃ p c, PathCost g p c ∧ p.head? = some a ∧ p.getLast? = some b

/-- All recorded edge weights are non-negative. -/
def Nonneg (g : Graph) : Prop :=
  ∀ a, ∀ e ∈ adjOf g a, 0 ≤ e.2

/-- Every neighbor named in an adjacency list is a key of the dict. -/
def WFgraph (g : Graph) : Prop :=
  ∀ a, ∀ e ∈ adjOf g a, e.1 ∈ keysOf g

/-- Each edge is recorded symmetrically, as add_road leaves it. -/
def EdgeSymm (g : Graph) : Prop :=
  ∀ a b w, (b, w) ∈ adjOf g a → (a, w) ∈ adjOf g b

theorem Reachable.refl (g : Graph) (a : Node) : Reachable g a a :=
  ⟨[a], 0, PathCost.single a, rfl, rfl⟩

theorem pathCost_ne_nil {g : Graph} {p : List Node} {c : ℚ}
    (h : PathCost g p c) : p ≠ [] := by
  cases h <;> simp

theorem pathCost_nonneg {g : Graph} (hw : Nonneg g) {p : List Node} {c : ℚ}
    (h : PathCost g p c) : 0 ≤ c := by
  induction h with
  | single a => exact le_refl 0
  | cons he _ ih => exact add_nonneg (hw _ _ he) ih

theorem pathCost_snoc {g : Graph} {p : List Node} {c : ℚ}
    (h : PathCost g p c) {u v : Node} {w : ℚ}
    (hu : p.getLast? = some u) (he : (v, w) ∈ adjOf g u) :
    PathCost g (p ++ [v]) (c + w) := by
  induction h with
  | single a =>
    simp only [List.getLast?_singleton, Option.some.injEq] at hu
    subst hu
    simpa using PathCost.cons he (PathCost.single v)
  | cons hab hbc ih =>
    rw [List.getLast?_cons_cons] at hu
    have := PathCost.cons hab (ih hu)
    simpa [add_assoc] using this

theorem pathCost_reverse {g : Graph} (hs : EdgeSymm g) {p : List Node} {c : ℚ}
    (h : PathCost g p c) : PathCost g p.reverse c := by
  induction h with
  | single a => exact PathCost.single a
  | cons hab hbc ih =>
    rename_i a b w cc rest
    have hlast : (b :: rest).reverse.getLast? = some b := by
      simp
    have := pathCost_snoc ih hlast (hs a b w hab)
    simpa [add_comm] using this

theorem reachable_symm {g : Graph} (hs : EdgeSymm g) {a b : Node}
    (h : Reachable g a b) : Reachable g b a := by
  obtain ⟨p, c, hp, hh, hl⟩ := h
  exact ⟨p.reverse, c, pathCost_reverse hs hp, by simpa using hl, by simpa using hh⟩

/-- Every adjacency entry of g is an adjacency entry of g2. -/
def AdjLe (g g2 : Graph) : Prop :=
  ∀ a, ∀ e ∈ adjOf g a, e ∈ adjOf g2 a

theorem pathCost_mono {g g2 : Graph} (h : AdjLe g g2) {p : List Node} {c : ℚ}
    (hp : PathCost g p c) : PathCost g2 p c := by
  induction hp with
  | single a => exact PathCost.single a
  | cons hab _ ih => exact PathCost.cons (h _ _ hab) ih

theorem reachable_mono {g g2 : Graph} (h : AdjLe g g2) {a b : Node}
    (hr : Reachable g a b) : Reachable g2 a b := by
  obtain ⟨p, c, hp, hh, hl⟩ := hr
  exact ⟨p, c, pathCost_mono h hp, hh, hl⟩

/-! Structural lemmas about appendEdge, add_road and mkNavigator. -/

theorem adjOf_appendEdge (g : Graph) (a : Node) (e : Node × ℚ) (x : Node) :
    adjOf (appendEdge g a e) x = if x = a then adjOf g a ++ [e] else adjOf g x := by
  unfold appendEdge adjOf
  by_cases hany : (g.any (fun p => p.1 == a)) = true
  · rw [if_pos hany, List.find?_map]
    have hcomp : ((fun p : Node × List (Node × ℚ) => p.1 == x) ∘
        fun p : Node × List (Node × ℚ) =>
          if p.1 == a then (p.1, p.2 ++ [e]) else p) =
        fun p : Node × List (Node × ℚ) => p.1 == x := by
      funext q
      by_cases hq : (q.1 == a) = true <;> simp [hq, Function.comp]
    rw [hcomp]
    by_cases hx : x = a
    · subst hx
      have hsome : (g.find? (fun p => p.1 == x)).isSome := by
        rw [List.find?_isSome]
        obtain ⟨q, hq, hqx⟩ := List.any_eq_true.mp hany
        exact ⟨q, hq, hqx⟩
      obtain ⟨q, hq⟩ := Option.isSome_iff_exists.mp hsome
      have hqx := List.find?_some hq
      simp only [] at hqx
      rw [hq, if_pos rfl]
      simp [beq_iff_eq.mp hqx]
    · rw [if_neg hx]
      cases hfind : g.find? (fun p => p.1 == x) with
      | none => simp
      | some q =>
        have hqx := List.find?_some hfind
        simp only [beq_iff_eq] at hqx
        have hqa : q.1 ≠ a := by
          rw [hqx]
          exact hx
        simp [hqa]
  · rw [if_neg hany]
    have hall : ∀ q ∈ g, ¬((fun p : Node × List (Node × ℚ) => p.1 == a) q = true) := by
      intro q hq hqa
      exact hany (List.any_eq_true.mpr ⟨q, hq, hqa⟩)
    have hnone : g.find? (fun p => p.1 == a) = none := List.find?_eq_none.mpr hall
    rw [List.find?_append]
    by_cases hx : x = a
    · subst hx
      rw [hnone]
      simp
    · have hax : (a == x) = false := beq_eq_false_iff_ne.mpr (fun h => hx h.symm)
      rw [if_neg hx]
      have h1 : List.find? (fun p : Node × List (Node × ℚ) => p.1 == x) [(a, [e])] =
          none := by
        rw [List.find?_eq_none]
        intro q hq
        simp only [List.mem_singleton] at hq
        subst hq
        simp [hax]
      rw [h1, Option.or_none]

theorem mem_keysOf_appendEdge {g : Graph} {a : Node} {e : Node × ℚ} {x : Node} :
    x ∈ keysOf (appendEdge g a e) ↔ x = a ∨ x ∈ keysOf g := by
  unfold appendEdge keysOf
  by_cases hany : (g.any (fun p => p.1 == a)) = true
  · rw [if_pos hany]
    simp only [List.map_map, List.mem_map, Function.comp]
    constructor
    · rintro ⟨q, hq, hqe⟩
      right
      refine ⟨q, hq, ?_⟩
      by_cases hqa : (q.1 == a) = true <;> simp [hqa] at hqe <;> rw [← hqe]
    · rintro (rfl | hx)
      · obtain ⟨q, hq, hqa⟩ := List.any_eq_true.mp hany
        refine ⟨q, hq, ?_⟩
        simp only [hqa, if_true]
        exact (beq_iff_eq.mp hqa)
      · obtain ⟨q, hq, hqx⟩ := hx
        refine ⟨q, hq, ?_⟩
        by_cases hqa : (q.1 == a) = true <;> simp only [hqa, if_true, if_false] <;>
          exact hqx
  · rw [if_neg hany]
    simp only [List.map_append, List.mem_append, List.map_cons, List.map_nil,
      List.mem_singleton]
    constructor
    · rintro (hx | hx)
      · exact Or.inr hx
      · exact Or.inl hx
    · rintro (rfl | hx)
      · exact Or.inr rfl
      · exact Or.inl hx

theorem adjOf_add_road (nav : GPSNavigator) (a b : Node) (w : ℚ) (x : Node) :
    adjOf (add_road nav a b w).graph x =
      if x = b then
        (if x = a then adjOf nav.graph a ++ [(b, w)] else adjOf nav.graph x) ++ [(a, w)]
      else if x = a then adjOf nav.graph a ++ [(b, w)]
      else adjOf nav.graph x := by
  show adjOf (appendEdge (appendEdge nav.graph a (b, w)) b (a, w)) x = _
  rw [adjOf_appendEdge, adjOf_appendEdge, adjOf_appendEdge]
  by_cases hxb : x = b
  · subst hxb
    by_cases hba : x = a <;> simp [hba]
  · by_cases hxa : x = a
    · subst hxa
      simp [hxb]
    · simp [hxb, hxa]

theorem mem_keysOf_add_road {nav : GPSNavigator} {a b : Node} {w : ℚ} {x : Node} :
    x ∈ keysOf (add_road nav a b w).graph ↔
      x = b ∨ x = a ∨ x ∈ keysOf nav.graph := by
  show x ∈ keysOf (appendEdge (appendEdge nav.graph a (b, w)) b (a, w)) ↔ _
  rw [mem_keysOf_appendEdge, mem_keysOf_appendEdge]

theorem node_names_add_road (nav : GPSNavigator) (a b : Node) (w : ℚ) :
    (add_road nav a b w).node_names = nav.node_names := rfl

theorem node_names_foldl (roads : List (Node × Node × ℚ)) (nav : GPSNavigator) :
    (roads.foldl (fun n c => add_road n c.1 c.2.1 c.2.2) nav).node_names =
      nav.node_names := by
  induction roads generalizing nav with
  | nil => rfl
  | cons r rs ih =>
    rw [List.foldl_cons, ih]
    rfl

theorem node_names_mkNavigator (roads : List (Node × Node × ℚ)) :
    (mkNavigator roads).node_names = baseNavigator.node_names :=
  node_names_foldl roads baseNavigator

/-! Wellformedness of navigator graphs reachable through the constructor and
add_road. -/

theorem mem_adjOf_add_road {nav : GPSNavigator} {a b : Node} {w : ℚ}
    {x : Node} {e : Node × ℚ} :
    e ∈ adjOf (add_road nav a b w).graph x ↔
      e ∈ adjOf nav.graph x ∨ (x = a ∧ e = (b, w)) ∨ (x = b ∧ e = (a, w)) := by
  rw [adjOf_add_road]
  by_cases hxb : x = b
  · by_cases hxa : x = a
    · have hba : b = a := by rw [← hxb]; exact hxa
      have hadj : adjOf nav.graph b = adjOf nav.graph x := by rw [hxb]
      simp [hxb, hxa, hba, hadj, List.mem_append, or_assoc]
    · have hba : ¬b = a := fun h => hxa (hxb.trans h)
      have hadj : adjOf nav.graph b = adjOf nav.graph x := by rw [hxb]
      simp [hxb, hxa, hba, hadj, List.mem_append]
  · by_cases hxa : x = a
    · have hadj : adjOf nav.graph a = adjOf nav.graph x := by rw [hxa]
      have hab : ¬a = b := fun h => hxb (hxa.trans h)
      simp [hxb, hxa, hab, hadj, List.mem_append]
    · simp [hxb, hxa]

theorem wfgraph_add_road {nav : GPSNavigator} (h : WFgraph nav.graph)
    (a b : Node) (w : ℚ) : WFgraph (add_road nav a b w).graph := by
  intro x e he
  rw [mem_adjOf_add_road] at he
  rw [mem_keysOf_add_road]
  rcases he with he | ⟨hxa, rfl⟩ | ⟨hxb, rfl⟩
  · exact Or.inr (Or.inr (h x e he))
  · exact Or.inl rfl
  · exact Or.inr (Or.inl rfl)

theorem edgeSymm_add_road {nav : GPSNavigator} (h : EdgeSymm nav.graph)
    (a b : Node) (w : ℚ) : EdgeSymm (add_road nav a b w).graph := by
  intro x y wxy hxy
  rw [mem_adjOf_add_road] at hxy ⊢
  rcases hxy with h1 | ⟨hxa, heq⟩ | ⟨hxb, heq⟩
  · exact Or.inl (h x y wxy h1)
  · injection heq with hyb hw
    exact Or.inr (Or.inr ⟨hyb, by rw [hxa, hw]⟩)
  · injection heq with hya hw
    exact Or.inr (Or.inl ⟨hya, by rw [hxb, hw]⟩)

theorem nonneg_add_road {nav : GPSNavigator} (h : Nonneg nav.graph)
    {a b : Node} {w : ℚ} (hw : 0 ≤ w) : Nonneg (add_road nav a b w).graph := by
  intro x e he
  rw [mem_adjOf_add_road] at he
  rcases he with he | ⟨_, rfl⟩ | ⟨_, rfl⟩
  · exact h x e he
  · exact hw
  · exact hw

theorem adjLe_add_road (nav : GPSNavigator) (a b : Node) (w : ℚ) :
    AdjLe nav.graph (add_road nav a b w).graph := by
  intro x e he
  rw [mem_adjOf_add_road]
  exact Or.inl he

theorem wfgraph_foldl (roads : List (Node × Node × ℚ)) (nav : GPSNavigator)
    (h : WFgraph nav.graph) :
    WFgraph ((roads.foldl (fun n c => add_road n c.1 c.2.1 c.2.2) nav).graph) := by
  induction roads generalizing nav with
  | nil => exact h
  | cons r rs ih =>
    rw [List.foldl_cons]
    exact ih _ (wfgraph_add_road h r.1 r.2.1 r.2.2)

theorem edgeSymm_foldl (roads : List (Node × Node × ℚ)) (nav : GPSNavigator)
    (h : EdgeSymm nav.graph) :
    EdgeSymm ((roads.foldl (fun n c => add_road n c.1 c.2.1 c.2.2) nav).graph) := by
  induction roads generalizing nav with
  | nil => exact h
  | cons r rs ih =>
    rw [List.foldl_cons]
    exact ih _ (edgeSymm_add_road h r.1 r.2.1 r.2.2)

theorem nonneg_foldl (roads : List (Node × Node × ℚ)) (nav : GPSNavigator)
    (h : Nonneg nav.graph) (hr : ∀ r ∈ roads, 0 ≤ r.2.2) :
    Nonneg ((roads.foldl (fun n c => add_road n c.1 c.2.1 c.2.2) nav).graph) := by
  induction roads generalizing nav with
  | nil => exact h
  | cons r rs ih =>
    rw [List.foldl_cons]
    exact ih _ (nonneg_add_road h (hr r (List.mem_cons_self r rs)))
      (fun q hq => hr q (List.mem_cons_of_mem r hq))

theorem adjOf_nil (x : Node) : adjOf ([] : Graph) x = [] := rfl

theorem wfgraph_empty : WFgraph ([] : Graph) := by
  intro a e he
  rw [adjOf_nil] at he
  cases he

theorem edgeSymm_empty : EdgeSymm ([] : Graph) := by
  intro a b w h
  rw [adjOf_nil] at h
  cases h

theorem nonneg_empty : Nonneg ([] : Graph) := by
  intro a e he
  rw [adjOf_nil] at he
  cases he

theorem wfgraph_base : WFgraph baseNavigator.graph :=
  wfgraph_foldl connections initialNavigator wfgraph_empty

theorem edgeSymm_base : EdgeSymm baseNavigator.graph :=
  edgeSymm_foldl connections initialNavigator edgeSymm_empty

theorem connections_nonneg : ∀ r ∈ connections, 0 ≤ r.2.2 := by decide

theorem nonneg_base : Nonneg baseNavigator.graph :=
  nonneg_foldl connections initialNavigator nonneg_empty connections_nonneg

theorem wfgraph_mkNavigator (roads : List (Node × Node × ℚ)) :
    WFgraph (mkNavigator roads).graph :=
  wfgraph_foldl roads baseNavigator wfgraph_base

theorem edgeSymm_mkNavigator (roads : List (Node × Node × ℚ)) :
    EdgeSymm (mkNavigator roads).graph :=
  edgeSymm_foldl roads baseNavigator edgeSymm_base

theorem nonneg_mkNavigator (roads : List (Node × Node × ℚ))
    (hr : ∀ r ∈ roads, 0 ≤ r.2.2) : Nonneg (mkNavigator roads).graph :=
  nonneg_foldl roads baseNavigator nonneg_base hr

theorem mem_keysOf_foldl (roads : List (Node × Node × ℚ)) (nav : GPSNavigator)
    {x : Node} (h : x ∈ keysOf nav.graph) :
    x ∈ keysOf ((roads.foldl (fun n c => add_road n c.1 c.2.1 c.2.2) nav).graph) := by
  induction roads generalizing nav with
  | nil => exact h
  | cons r rs ih =>
    rw [List.foldl_cons]
    exact ih _ (mem_keysOf_add_road.mpr (Or.inr (Or.inr h)))

set_option maxHeartbeats 2000000 in
/-- Every named node of any reachable navigator is a key of its graph: the
12 built-in names are keys of the city graph and add_road never removes a
key. -/
theorem named_mem_keys (roads : List (Node × Node × ℚ)) (n : Node) (s : String)
    (h : lookupName (mkNavigator roads) n = some s) :
    n ∈ keysOf (mkNavigator roads).graph := by
  rw [lookupName, node_names_mkNavigator] at h
  obtain ⟨e, he⟩ := Option.map_eq_some'.mp h
  have hmem := List.mem_of_find?_eq_some he.1
  have hkey := List.find?_some he.1
  simp only [beq_iff_eq] at hkey
  have hbase : ∀ m ∈ baseNavigator.node_names, m.1 ∈ keysOf baseNavigator.graph := by
    decide
  have := hbase e hmem
  rw [hkey] at this
  exact mem_keysOf_foldl roads baseNavigator this

/-! Properties of the sorted-list priority queue and of the dict updates. -/

theorem qle_trans {a b c : ℚ × Node} (h1 : qle a b) (h2 : qle b c) : qle a c := by
  unfold qle at *
  rcases h1 with h1 | ⟨h1e, h1n⟩ <;> rcases h2 with h2 | ⟨h2e, h2n⟩
  · exact Or.inl (lt_trans h1 h2)
  · exact Or.inl (h2e ▸ h1)
  · exact Or.inl (h1e ▸ h2)
  · exact Or.inr ⟨h1e.trans h2e, le_trans h1n h2n⟩

theorem qle_total (a b : ℚ × Node) : qle a b ∨ qle b a := by
  unfold qle
  rcases lt_trichotomy a.1 b.1 with h | h | h
  · exact Or.inl (Or.inl h)
  · rcases le_total a.2 b.2 with h2 | h2
    · exact Or.inl (Or.inr ⟨h, h2⟩)
    · exact Or.inr (Or.inr ⟨h.symm, h2⟩)
  · exact Or.inr (Or.inl h)

theorem mem_qInsert {x e : ℚ × Node} {l : List (ℚ × Node)} :
    x ∈ qInsert e l ↔ x = e ∨ x ∈ l := by
  induction l with
  | nil => simp [qInsert]
  | cons y ys ih =>
    unfold qInsert
    by_cases h : qle e y
    · simp [h]
    · simp only [h, if_false, List.mem_cons, ih]
      tauto

theorem pairwise_qInsert {e : ℚ × Node} {l : List (ℚ × Node)}
    (h : l.Pairwise qle) : (qInsert e l).Pairwise qle := by
  induction l with
  | nil => simp [qInsert]
  | cons y ys ih =>
    rw [List.pairwise_cons] at h
    unfold qInsert
    by_cases hq : qle e y
    · rw [if_pos hq, List.pairwise_cons]
      constructor
      · intro z hz
        rcases List.mem_cons.mp hz with rfl | hz
        · exact hq
        · exact qle_trans hq (h.1 z hz)
      · exact List.pairwise_cons.mpr h
    · rw [if_neg hq, List.pairwise_cons]
      refine ⟨?_, ih h.2⟩
      intro z hz
      rcases mem_qInsert.mp hz with he | hz
      · rw [he]
        exact (qle_total e y).resolve_left hq
      · exact h.1 z hz

theorem lookupKey_setKey_self (l : List (Node × Node)) (n m : Node) :
    lookupKey (setKey l n m) n = some m := by
  unfold setKey lookupKey
  by_cases hany : (l.any (fun p => p.1 == n)) = true
  · rw [if_pos hany, List.find?_map]
    have hcomp : ((fun p : Node × Node => p.1 == n) ∘
        fun p : Node × Node => if p.1 == n then (n, m) else p) =
        fun p : Node × Node => p.1 == n := by
      funext q
      by_cases hq : (q.1 == n) = true <;> simp [hq, Function.comp]
    rw [hcomp]
    have hsome : (l.find? (fun p => p.1 == n)).isSome := by
      rw [List.find?_isSome]
      obtain ⟨q, hq, hqn⟩ := List.any_eq_true.mp hany
      exact ⟨q, hq, hqn⟩
    obtain ⟨q, hq⟩ := Option.isSome_iff_exists.mp hsome
    have hqn := List.find?_some hq
    simp only [] at hqn
    rw [hq]
    simp [beq_iff_eq.mp hqn]
  · rw [if_neg hany, List.find?_append]
    have hall : ∀ q ∈ l, ¬((fun p : Node × Node => p.1 == n) q = true) := by
      intro q hq hqn
      exact hany (List.any_eq_true.mpr ⟨q, hq, hqn⟩)
    rw [List.find?_eq_none.mpr hall]
    simp

theorem lookupKey_setKey_ne (l : List (Node × Node)) {n x : Node} (m : Node)
    (hx : x ≠ n) : lookupKey (setKey l n m) x = lookupKey l x := by
  unfold setKey lookupKey
  by_cases hany : (l.any (fun p => p.1 == n)) = true
  · rw [if_pos hany, List.find?_map]
    have hcomp : ((fun p : Node × Node => p.1 == x) ∘
        fun p : Node × Node => if p.1 == n then (n, m) else p) =
        fun p : Node × Node => p.1 == x := by
      funext q
      by_cases hq : (q.1 == n) = true
      · simp only [Function.comp, hq, if_true]
        rw [beq_iff_eq.mp hq]
      · simp [hq, Function.comp]
    rw [hcomp]
    cases hfind : l.find? (fun p => p.1 == x) with
    | none => simp
    | some q =>
      have hqx := List.find?_some hfind
      simp only [beq_iff_eq] at hqx
      have hqn : ¬q.1 = n := by
        rw [hqx]
        exact hx
      simp [hqn]
  · rw [if_neg hany, List.find?_append]
    have h1 : List.find? (fun p : Node × Node => p.1 == x) [(n, m)] = none := by
      rw [List.find?_eq_none]
      intro q hq
      simp only [List.mem_singleton] at hq
      subst hq
      simp only [beq_iff_eq]
      exact fun h => hx h.symm
    rw [h1, Option.or_none]

theorem mem_fst_of_lookupKey {l : List (Node × Node)} {x y : Node}
    (h : lookupKey l x = some y) : x ∈ l.map Prod.fst := by
  unfold lookupKey at h
  obtain ⟨q, hq⟩ := Option.map_eq_some'.mp h
  have hmem := List.mem_of_find?_eq_some hq.1
  have hkey := List.find?_some hq.1
  simp only [beq_iff_eq] at hkey
  exact List.mem_map.mpr ⟨q, hmem, hkey⟩

theorem map_fst_setKey (l : List (Node × Node)) (n m : Node) :
    (setKey l n m).map Prod.fst = l.map Prod.fst ∨
      (setKey l n m).map Prod.fst = l.map Prod.fst ++ [n] := by
  unfold setKey
  by_cases hany : (l.any (fun p => p.1 == n)) = true
  · rw [if_pos hany, List.map_map]
    left
    apply List.map_congr_left
    intro q hq
    by_cases hqn : (q.1 == n) = true
    · simp [Function.comp, hqn, beq_iff_eq.mp hqn]
    · simp [Function.comp, hqn]
  · rw [if_neg hany, List.map_append]
    right
    rfl

theorem length_setKey (l : List (Node × Node)) (n m : Node) :
    l.length ≤ (setKey l n m).length := by
  unfold setKey
  by_cases hany : (l.any (fun p => p.1 == n)) = true
  · simp [hany]
  · simp [hany]

/-- Termination of the reconstruction walk along a rank function that drops
across every predecessor link. -/
theorem walkPrev_isSome (prev : List (Node × Node)) (f : Node → Nat)
    (hrank : ∀ x y, lookupKey prev x = some y → f y < f x) :
    ∀ (fuel : Nat) (en : Node), f en < fuel → (walkPrev prev fuel en).isSome := by
  intro fuel
  induction fuel with
  | zero => intro en h; cases h
  | succ fu ih =>
    intro en hen
    cases hl : lookupKey prev en with
    | none => simp [walkPrev, hl]
    | some m =>
      have hm := hrank en m hl
      have hfm : f m < fu := by omega
      obtain ⟨l, hl2⟩ := Option.isSome_iff_exists.mp (ih m hfm)
      simp [walkPrev, hl, hl2]

/-! The loop invariant of the dijkstra while-loop. -/

/-- Every edge out of n into an unvisited node has been relaxed. -/
def RelaxedAt (nav : GPSNavigator) (st : St) (n : Node) : Prop :=
  ∀ e ∈ adjOf nav.graph n, e.1 ∉ st.visited →
    st.dist e.1 ≤ st.dist n + (e.2 : WithTop ℚ)

/-- State invariant of one dijkstra call with source s.
sorted/qdist/entry describe the lazy-deletion heap: entries dominate current
labels and every unvisited labelled node keeps one entry carrying exactly its
label. fresh pins the state before the first pop. prev_spec ties each
predecessor link to a recorded edge whose weight telescopes the labels and to
the visit order. achieve says every finite label is the cost of an actual
walk from s; mins says, for non-negative graphs, every visited label is
minimal among walk costs. -/
structure Inv (nav : GPSNavigator) (s : Node) (st : St) : Prop where
  sorted : st.queue.Pairwise qle
  qdist : ∀ e ∈ st.queue, st.dist e.2 ≤ (e.1 : WithTop ℚ)
  entry : ∀ n, n ∉ st.visited → ∀ c : ℚ, st.dist n = (c : WithTop ℚ) →
    ((c, n) : ℚ × Node) ∈ st.queue
  vnodup : st.visited.Nodup
  vfin : ∀ n ∈ st.visited, st.dist n ≠ ⊤
  dist_s : st.dist s = ((0 : ℚ) : WithTop ℚ)
  fresh : s ∉ st.visited →
    st.visited = [] ∧ st.prev = [] ∧ st.queue = [((0 : ℚ), s)] ∧
    (∀ n, n ≠ s → st.dist n = ⊤)
  prev_spec : ∀ x y, lookupKey st.prev x = some y → y ∈ st.visited ∧
    (x ∈ st.visited → List.indexOf y st.visited < List.indexOf x st.visited) ∧
    ∃ w : ℚ, (x, w) ∈ adjOf nav.graph y ∧ st.dist x = st.dist y + (w : WithTop ℚ)
  prev_ne_s : lookupKey st.prev s = none
  achieve : ∀ n (c : ℚ), st.dist n = (c : WithTop ℚ) →
    ∃ p, PathCost nav.graph p c ∧ p.head? = some s ∧ p.getLast? = some n
  mins : Nonneg nav.graph → ∀ n ∈ st.visited, ∀ p (k : ℚ),
    PathCost nav.graph p k → p.head? = some s → p.getLast? = some n →
    st.dist n ≤ (k : WithTop ℚ)
  fin_prev : ∀ x, x ≠ s → st.dist x ≠ ⊤ → lookupKey st.prev x ≠ none

theorem Inv.s_visited {nav : GPSNavigator} {s : Node} {st : St}
    (inv : Inv nav s st) {cur : Node} (hcur : cur ∈ st.visited) :
    s ∈ st.visited := by
  by_contra hs
  have := (inv.fresh hs).1
  rw [this] at hcur
  cases hcur

/-- One full pass of the neighbor loop preserves the invariant, leaves
visited nodes (and in particular the current node) untouched, only improves
labels, and relaxes every processed edge into an unvisited neighbor. -/
theorem relax_spec (nav : GPSNavigator) (s : Node) (dom : List Node)
    (c : ℚ) (cur : Node) :
    ∀ (L : List (Node × ℚ)) (st st2 : St),
    relaxList nav dom c cur L st = some st2 →
    (∀ e ∈ L, e ∈ adjOf nav.graph cur) →
    cur ∈ st.visited →
    st.dist cur = (c : WithTop ℚ) →
    Inv nav s st →
    (∀ n ∈ st.visited, n ≠ cur → RelaxedAt nav st n) →
    Inv nav s st2 ∧ (∀ n ∈ st2.visited, n ≠ cur → RelaxedAt nav st2 n) ∧
    st2.visited = st.visited ∧ st2.prev.length ≥ st.prev.length ∧
    (∀ x, st2.dist x ≤ st.dist x) ∧
    (∀ x ∈ st.visited, st2.dist x = st.dist x) ∧
    (∀ e ∈ L, e.1 ∉ st.visited → st2.dist e.1 ≤ ((c + e.2 : ℚ) : WithTop ℚ))
  | [], st, st2, hrel, hsub, hcur, hdc, inv, hre => by
    unfold relaxList at hrel
    cases hrel
    refine ⟨inv, hre, rfl, le_refl _, fun x => le_refl _, fun x _ => rfl, ?_⟩
    intro e he
    cases he
  | (nb, w) :: rest, st, st2, hrel, hsub, hcur, hdc, inv, hre => by
    unfold relaxList at hrel
    by_cases hv : nb ∈ st.visited
    · rw [if_pos hv] at hrel
      have ih := relax_spec nav s dom c cur rest st st2 hrel
        (fun e he => hsub e (List.mem_cons_of_mem _ he)) hcur hdc inv hre
      refine ⟨ih.1, ih.2.1, ih.2.2.1, ih.2.2.2.1, ih.2.2.2.2.1, ih.2.2.2.2.2.1, ?_⟩
      intro e he hne
      rcases List.mem_cons.mp he with rfl | he
      · exact absurd hv hne
      · exact ih.2.2.2.2.2.2 e he hne
    · rw [if_neg hv] at hrel
      by_cases hdom : nb ∈ dom
      · rw [if_pos hdom] at hrel
        by_cases himp : ((c + w : ℚ) : WithTop ℚ) < st.dist nb
        · rw [if_pos himp] at hrel
          cases hname : lookupName nav nb with
          | none => rw [hname] at hrel; cases hrel
          | some nm =>
            rw [hname] at hrel
            set st1 : St :=
              { dist := fun x => if x = nb then ((c + w : ℚ) : WithTop ℚ) else st.dist x
                prev := setKey st.prev nb cur
                visited := st.visited
                queue := qInsert ((c + w : ℚ), nb) st.queue
                steps := st.steps ++
                  ["  → Updated route to " ++ nm ++ ": " ++ fmt1 (c + w) ++ "km"] }
              with hst1
            have hd1 : ∀ x, st1.dist x = if x = nb then ((c + w : ℚ) : WithTop ℚ)
                else st.dist x := fun x => rfl
            have hmono1 : ∀ x, st1.dist x ≤ st.dist x := by
              intro x
              rw [hd1]
              by_cases hx : x = nb
              · rw [if_pos hx, hx]
                exact le_of_lt himp
              · rw [if_neg hx]
            have hvis1 : ∀ x ∈ st.visited, st1.dist x = st.dist x := by
              intro x hx
              rw [hd1, if_neg]
              intro h
              rw [h] at hx
              exact hv hx
            have hs_vis : s ∈ st.visited := inv.s_visited hcur
            have hnbs : nb ≠ s := fun h => hv (h ▸ hs_vis)
            have hnbcur : nb ≠ cur := fun h => hv (h ▸ hcur)
            have inv1 : Inv nav s st1 := by
              refine ⟨?_, ?_, ?_, ?_, ?_, ?_, ?_, ?_, ?_, ?_, ?_, ?_⟩
              · exact pairwise_qInsert inv.sorted
              · intro e he
                rcases mem_qInsert.mp he with rfl | he
                · rw [hd1, if_pos rfl]
                · exact le_trans (hmono1 e.2) (inv.qdist e he)
              · intro n hn cc hcc
                rw [hd1] at hcc
                by_cases hx : n = nb
                · rw [if_pos hx] at hcc
                  have : cc = c + w := by
                    exact_mod_cast hcc.symm
                  rw [this, hx]
                  exact mem_qInsert.mpr (Or.inl rfl)
                · rw [if_neg hx] at hcc
                  exact mem_qInsert.mpr (Or.inr (inv.entry n hn cc hcc))
              · exact inv.vnodup
              · intro n hn
                rw [hvis1 n hn]
                exact inv.vfin n hn
              · rw [hd1, if_neg hnbs.symm]
                exact inv.dist_s
              · intro hs
                exact absurd hs_vis hs
              · intro x y hxy
                by_cases hx : x = nb
                · rw [hx, lookupKey_setKey_self] at hxy
                  cases hxy
                  rw [hx]
                  refine ⟨hcur, ?_, w, hsub (nb, w) (List.mem_cons_self _ _), ?_⟩
                  · intro hxv
                    exact absurd hxv hv
                  · rw [hd1 nb, hd1 cur, if_pos rfl, if_neg (Ne.symm hnbcur), hdc]
                    exact WithTop.coe_add c w
                · rw [lookupKey_setKey_ne _ _ hx] at hxy
                  obtain ⟨hy, hidx, ww, hww, hdd⟩ := inv.prev_spec x y hxy
                  refine ⟨hy, hidx, ww, hww, ?_⟩
                  have hyne : y ≠ nb := fun h => hv (h ▸ hy)
                  rw [hd1, hd1, if_neg hx, if_neg hyne]
                  exact hdd
              · rw [lookupKey_setKey_ne _ _ hnbs.symm]
                exact inv.prev_ne_s
              · intro n cc hcc
                rw [hd1] at hcc
                by_cases hx : n = nb
                · rw [if_pos hx] at hcc
                  have hccw : cc = c + w := by exact_mod_cast hcc.symm
                  rw [hccw, hx]
                  obtain ⟨p, hp, hph, hpl⟩ := inv.achieve cur c hdc
                  refine ⟨p ++ [nb], pathCost_snoc hp hpl
                    (hsub (nb, w) (List.mem_cons_self _ _)), ?_, ?_⟩
                  · rw [List.head?_append_of_ne_nil _ (pathCost_ne_nil hp)]
                    exact hph
                  · simp
                · rw [if_neg hx] at hcc
                  exact inv.achieve n cc hcc
              · intro hw n hn p k hp hph hpl
                rw [hvis1 n hn]
                exact inv.mins hw n hn p k hp hph hpl
              · intro x hxs hxfin
                by_cases hx : x = nb
                · rw [hx, lookupKey_setKey_self]
                  exact Option.some_ne_none cur
                · rw [lookupKey_setKey_ne _ _ hx]
                  refine inv.fin_prev x hxs ?_
                  rw [hd1, if_neg hx] at hxfin
                  exact hxfin
            have hre1 : ∀ n ∈ st1.visited, n ≠ cur → RelaxedAt nav st1 n := by
              intro n hn hne e he hevis
              have hnnb : n ≠ nb := fun h => hv (h ▸ hn)
              rw [hvis1 n hn]
              exact le_trans (hmono1 e.1) (hre n hn hne e he hevis)
            have ih := relax_spec nav s dom c cur rest st1 st2 hrel
              (fun e he => hsub e (List.mem_cons_of_mem _ he)) hcur
              (by rw [hvis1 cur hcur]; exact hdc) inv1 hre1
            refine ⟨ih.1, ih.2.1, ih.2.2.1, le_trans (length_setKey _ _ _) ih.2.2.2.1,
              fun x => le_trans (ih.2.2.2.2.1 x) (hmono1 x),
              ?_, ?_⟩
            · intro x hx
              rw [ih.2.2.2.2.2.1 x hx]
              exact hvis1 x hx
            · intro e he hevis
              rcases List.mem_cons.mp he with he2 | he2
              · rw [he2]
                exact le_trans (ih.2.2.2.2.1 nb)
                  (le_of_eq (by rw [hd1 nb, if_pos rfl]))
              · exact ih.2.2.2.2.2.2 e he2 hevis
        · rw [if_neg himp] at hrel
          have ih := relax_spec nav s dom c cur rest st st2 hrel
            (fun e he => hsub e (List.mem_cons_of_mem _ he)) hcur hdc inv hre
          refine ⟨ih.1, ih.2.1, ih.2.2.1, ih.2.2.2.1, ih.2.2.2.2.1, ih.2.2.2.2.2.1, ?_⟩
          intro e he hevis
          rcases List.mem_cons.mp he with he2 | he2
          · have hle : st.dist nb ≤ ((c + w : ℚ) : WithTop ℚ) := not_lt.mp himp
            rw [he2]
            exact le_trans (ih.2.2.2.2.1 nb) hle
          · exact ih.2.2.2.2.2.2 e he2 hevis
      · rw [if_neg hdom] at hrel
        cases hrel

/-- The popped entry of an unvisited node carries exactly its current label:
entries dominate labels, the node keeps one entry at its label, and the head
of the sorted queue is minimal. -/
theorem pop_dist {nav : GPSNavigator} {s : Node} {st : St}
    (inv : Inv nav s st) {c : ℚ} {n : Node} {rest : List (ℚ × Node)}
    (hq : st.queue = (c, n) :: rest) (hv : n ∉ st.visited) :
    st.dist n = (c : WithTop ℚ) := by
  have hmem : ((c, n) : ℚ × Node) ∈ st.queue := by
    rw [hq]
    exact List.mem_cons_self _ _
  have h1 : st.dist n ≤ (c : WithTop ℚ) := inv.qdist (c, n) hmem
  have hfin : st.dist n ≠ ⊤ := by
    intro h
    rw [h] at h1
    exact absurd h1 (by simp)
  obtain ⟨c', hc'⟩ := WithTop.ne_top_iff_exists.mp hfin
  have hentry : ((c', n) : ℚ × Node) ∈ st.queue := inv.entry n hv c' hc'.symm
  rw [hq] at hentry
  have hcc' : c ≤ c' := by
    rcases List.mem_cons.mp hentry with he | he
    · have : c' = c := congrArg Prod.fst he
      rw [this]
    · have hle : qle (c, n) (c', n) := by
        have := inv.sorted
        rw [hq, List.pairwise_cons] at this
        exact this.1 _ he
      rcases hle with h | ⟨h, _⟩
      · exact le_of_lt h
      · exact le_of_eq h
  have hc'c : c' ≤ c := by
    rw [← hc'] at h1
    exact_mod_cast h1
  rw [← hc', le_antisymm hc'c hcc']

/-- Any walk that starts inside the visited region at a vertex labelled du
and ends outside it passes a queue entry of value at most du plus the walk
cost (non-negative weights). The walk is traversed from its head; the first
edge out of the visited region was relaxed and its endpoint keeps a queue
entry. -/
theorem frontier_path {nav : GPSNavigator} {s : Node} {st : St}
    (inv : Inv nav s st) (hrel : ∀ m ∈ st.visited, RelaxedAt nav st m)
    (hw : Nonneg nav.graph) :
    ∀ {p : List Node} {k : ℚ}, PathCost nav.graph p k →
    ∀ u (du : ℚ), p.head? = some u → u ∈ st.visited → st.dist u = (du : WithTop ℚ) →
    ∀ y, p.getLast? = some y → y ∉ st.visited →
    ∃ e ∈ st.queue, e.1 ≤ du + k := by
  intro p k hp
  induction hp with
  | single a =>
    intro u du hh hu hdu y hl hy
    simp only [List.head?_cons, Option.some.injEq] at hh
    simp only [List.getLast?_singleton, Option.some.injEq] at hl
    rw [← hh] at hu
    rw [← hl] at hy
    exact absurd hu hy
  | cons he hbc ih =>
    rename_i a b w k' rest
    intro u du hh hu hdu y hl hy
    simp only [List.head?_cons, Option.some.injEq] at hh
    rw [List.getLast?_cons_cons] at hl
    subst hh
    by_cases hb : b ∈ st.visited
    · have hbfin := inv.vfin b hb
      obtain ⟨db, hdb⟩ := WithTop.ne_top_iff_exists.mp hbfin
      have hdble : db ≤ du + w := by
        obtain ⟨q, hq, hqh, hql⟩ := inv.achieve a du hdu
        have hsnoc := pathCost_snoc hq hql he
        have := inv.mins hw b hb (q ++ [b]) (du + w) hsnoc
          (by rw [List.head?_append_of_ne_nil _ (pathCost_ne_nil hq)]; exact hqh)
          (by simp)
        rw [← hdb] at this
        exact_mod_cast this
      obtain ⟨e, hmem, hle⟩ := ih b db rfl hb hdb.symm y hl hy
      refine ⟨e, hmem, ?_⟩
      have : du + (w + k') = (du + w) + k' := by ring
      rw [this]
      calc e.1 ≤ db + k' := hle
        _ ≤ (du + w) + k' := by linarith
    · have hrelu := hrel a hu (b, w) he hb
      rw [hdu] at hrelu
      have hbfin : st.dist b ≠ ⊤ := by
        intro h
        rw [h] at hrelu
        exact absurd hrelu (by simp [← WithTop.coe_add])
      obtain ⟨db, hdb⟩ := WithTop.ne_top_iff_exists.mp hbfin
      have hdble : db ≤ du + w := by
        rw [← hdb, ← WithTop.coe_add] at hrelu
        exact_mod_cast hrelu
      have hkn : 0 ≤ k' := pathCost_nonneg hw hbc
      refine ⟨(db, b), inv.entry b hb db hdb.symm, ?_⟩
      · linarith

/-- The label of a freshly popped unvisited node is minimal among all walk
costs from the source (non-negative weights): the queue head is the least
entry, and every walk to an unvisited node meets some entry. -/
theorem pop_min {nav : GPSNavigator} {s : Node} {st : St}
    (inv : Inv nav s st) (hrel : ∀ m ∈ st.visited, RelaxedAt nav st m)
    (hw : Nonneg nav.graph) {c : ℚ} {n : Node} {rest : List (ℚ × Node)}
    (hq : st.queue = (c, n) :: rest) (hv : n ∉ st.visited) :
    ∀ p (k : ℚ), PathCost nav.graph p k → p.head? = some s →
    p.getLast? = some n → c ≤ k := by
  intro p k hp hph hpl
  by_cases hns : n = s
  · have hd := pop_dist inv hq hv
    rw [hns, inv.dist_s] at hd
    have hc0 : (0 : ℚ) = c := by exact_mod_cast hd
    rw [← hc0]
    exact pathCost_nonneg hw hp
  · have hs_vis : s ∈ st.visited := by
      by_contra hs
      obtain ⟨_, _, hq0, _⟩ := inv.fresh hs
      rw [hq0] at hq
      injection hq with h1 h2
      exact hns (congrArg Prod.snd h1).symm
    obtain ⟨e, hmem, hle⟩ := frontier_path inv hrel hw hp s 0 hph hs_vis
      inv.dist_s n hpl hv
    rw [hq] at hmem
    have hce : c ≤ e.1 := by
      rcases List.mem_cons.mp hmem with he | he
      · rw [he]
      · have hle2 : qle (c, n) e := by
          have hsort := inv.sorted
          rw [hq, List.pairwise_cons] at hsort
          exact hsort.1 e he
        rcases hle2 with h | ⟨h, _⟩
        · exact le_of_lt h
        · exact le_of_eq h
    linarith

/-- Adding the popped node to the visited set preserves the invariant; every
previously visited node stays relaxed, and the new node's label equals the
popped distance. The steps log is irrelevant to the invariant. -/
theorem visit_step {nav : GPSNavigator} {s : Node} {st : St}
    (inv : Inv nav s st) (hrel : ∀ m ∈ st.visited, RelaxedAt nav st m)
    {c : ℚ} {n : Node} {rest : List (ℚ × Node)}
    (hq : st.queue = (c, n) :: rest) (hv : n ∉ st.visited)
    (steps2 : List String) :
    Inv nav s (visitState st n rest steps2) ∧
    (∀ m ∈ st.visited ++ [n], m ≠ n →
      RelaxedAt nav (visitState st n rest steps2) m) ∧
    st.dist n = (c : WithTop ℚ) := by
  have hdn := pop_dist inv hq hv
  set st1 : St := visitState st n rest steps2 with hst1
  have hd1 : st1.dist = st.dist := rfl
  have hp1 : st1.prev = st.prev := rfl
  have hsorted := inv.sorted
  rw [hq, List.pairwise_cons] at hsorted
  refine ⟨⟨hsorted.2, ?_, ?_, ?_, ?_, inv.dist_s, ?_, ?_, inv.prev_ne_s, inv.achieve,
    ?_, inv.fin_prev⟩, ?_, hdn⟩
  · intro e he
    exact inv.qdist e (by rw [hq]; exact List.mem_cons_of_mem _ he)
  · intro m hm cc hcc
    have hm2 : m ∉ st.visited := fun h => hm (List.mem_append_left _ h)
    have hmn : m ≠ n := fun h => hm (by rw [h]; exact List.mem_append_right _ (by simp))
    have := inv.entry m hm2 cc hcc
    rw [hq] at this
    rcases List.mem_cons.mp this with he | he
    · exact absurd (congrArg Prod.snd he) hmn
    · exact he
  · refine List.Nodup.append inv.vnodup (List.nodup_singleton n) ?_
    intro a ha hb
    rw [List.mem_singleton] at hb
    rw [hb] at ha
    exact hv ha
  · intro m hm
    rcases List.mem_append.mp hm with hm | hm
    · exact inv.vfin m hm
    · rw [List.mem_singleton] at hm
      rw [hm, hd1, hdn]
      exact WithTop.coe_ne_top
  · intro hs
    exfalso
    have hs2 : s ∉ st.visited := fun h => hs (List.mem_append_left _ h)
    obtain ⟨_, _, hq0, _⟩ := inv.fresh hs2
    rw [hq0] at hq
    injection hq with h1 h2
    have hn_s : n = s := (congrArg Prod.snd h1).symm
    exact hs (by rw [← hn_s]; exact List.mem_append_right _ (by simp))
  · intro x y hxy
    obtain ⟨hy, hidx, hw⟩ := inv.prev_spec x y hxy
    refine ⟨List.mem_append_left _ hy, ?_, hw⟩
    intro hx
    show List.indexOf y (st.visited ++ [n]) < List.indexOf x (st.visited ++ [n])
    rw [List.indexOf_append_of_mem hy]
    rcases List.mem_append.mp hx with hx | hx
    · rw [List.indexOf_append_of_mem hx]
      exact hidx hx
    · rw [List.mem_singleton] at hx
      rw [hx, List.indexOf_append_of_not_mem hv, List.indexOf_cons_self]
      have := List.indexOf_lt_length.mpr hy
      omega
  · intro hw m hm p k hp hph hpl
    rcases List.mem_append.mp hm with hm | hm
    · exact inv.mins hw m hm p k hp hph hpl
    · rw [List.mem_singleton] at hm
      subst hm
      rw [hd1, hdn]
      exact_mod_cast pop_min inv hrel hw hq hv p k hp hph hpl
  · intro m hm hmn e he hevis
    have hm2 : m ∈ st.visited := by
      rcases List.mem_append.mp hm with h | h
      · exact h
      · rw [List.mem_singleton] at h
        exact absurd h hmn
    have hevis2 : e.1 ∉ st.visited := fun h => hevis (List.mem_append_left _ h)
    exact hrel m hm2 e he hevis2

/-- Conditional total correctness of the main loop: whenever it completes,
the invariant holds in the final state, every visited node other than a
just-popped destination is fully relaxed, and the loop can only have stopped
on an empty heap (with all visited nodes relaxed) or by popping the
destination. -/
theorem loop_master (nav : GPSNavigator) (s en : Node) (dom : List Node) :
    ∀ (fuel : Nat) (st st2 : St),
    dijkstraLoop nav en dom fuel st = some st2 →
    Inv nav s st → (∀ m ∈ st.visited, RelaxedAt nav st m) →
    Inv nav s st2 ∧
      (en ∈ st2.visited ∨
        (st2.queue = [] ∧ ∀ m ∈ st2.visited, RelaxedAt nav st2 m))
  | 0, st, st2, hloop, inv, hrel => by
    unfold dijkstraLoop at hloop
    cases hloop
  | fuel + 1, st, st2, hloop, inv, hrel => by
    unfold dijkstraLoop at hloop
    split at hloop
    case _ hq =>
      cases hloop
      exact ⟨inv, Or.inr ⟨hq, hrel⟩⟩
    case _ c nn rest hq =>
      by_cases hv : nn ∈ st.visited
      · rw [if_pos hv] at hloop
        have inv' : Inv nav s { st with queue := rest } := by
          have hsorted := inv.sorted
          rw [hq, List.pairwise_cons] at hsorted
          refine ⟨hsorted.2, ?_, ?_, inv.vnodup, inv.vfin, inv.dist_s, ?_,
            inv.prev_spec, inv.prev_ne_s, inv.achieve, inv.mins, inv.fin_prev⟩
          · intro e he
            exact inv.qdist e (by rw [hq]; exact List.mem_cons_of_mem _ he)
          · intro m hm cc hcc
            have := inv.entry m hm cc hcc
            rw [hq] at this
            rcases List.mem_cons.mp this with he | he
            · exfalso
              have : m = nn := congrArg Prod.snd he
              rw [this] at hm
              exact hm hv
            · exact he
          · intro hs
            obtain ⟨h1, h2, hq0, h4⟩ := inv.fresh hs
            rw [hq0] at hq
            injection hq with hh1 hh2
            exfalso
            have : nn = s := (congrArg Prod.snd hh1).symm
            rw [this] at hv
            rw [h1] at hv
            cases hv
        exact loop_master nav s en dom fuel _ st2 hloop inv' hrel
      · rw [if_neg hv] at hloop
        split at hloop
        case _ => cases hloop
        case _ nm hname =>
          by_cases hen : nn = en
          · rw [if_pos hen] at hloop
            cases hloop
            obtain ⟨inv1, hre1, hdn⟩ := visit_step inv hrel hq hv
              ((st.steps ++ ["Exploring " ++ nm ++ " (Distance: " ++ fmt1 c ++ "km)"]) ++
                ["✅ Reached destination: " ++ nm])
            refine ⟨inv1, Or.inl ?_⟩
            show en ∈ st.visited ++ [nn]
            rw [← hen]
            exact List.mem_append_right _ (by simp)
          · rw [if_neg hen] at hloop
            split at hloop
            case _ => cases hloop
            case _ st3 hrell =>
              obtain ⟨inv1, hre1, hdn⟩ := visit_step inv hrel hq hv
                (st.steps ++ ["Exploring " ++ nm ++ " (Distance: " ++ fmt1 c ++ "km)"])
              obtain ⟨inv3, hre3, hvis3, hprev3, hmono3, hvisd3, hprog3⟩ :=
                relax_spec nav s dom c nn (adjOf nav.graph nn) _ st3 hrell
                  (fun e he => he) (List.mem_append_right _ (by simp)) hdn inv1 hre1
              simp only [visitState] at hvis3 hvisd3 hprog3
              have hrel3 : ∀ m ∈ st3.visited, RelaxedAt nav st3 m := by
                intro m hm
                by_cases hmn : m = nn
                · intro e he hevis
                  rw [hmn] at he
                  rw [hmn]
                  have hd3nn : st3.dist nn = (c : WithTop ℚ) := by
                    rw [hvisd3 nn (List.mem_append_right _ (by simp))]
                    exact hdn
                  rw [hd3nn]
                  have hevis1 : e.1 ∉ st.visited ++ [nn] := by
                    rw [← hvis3]
                    exact hevis
                  have := hprog3 e he hevis1
                  rw [← WithTop.coe_add]
                  exact this
                · rw [hvis3] at hm
                  exact hre3 m (by rw [hvis3]; exact hm) hmn
              exact loop_master nav s en dom fuel st3 st2 hloop inv3 hrel3

/-- Structure of a completed reconstruction walk: it starts at the queried
node, follows predecessor links, and stops at a node without one. -/
theorem walkPrev_spec (prev : List (Node × Node)) :
    ∀ (fuel : Nat) (cur : Node) (l : List Node),
    walkPrev prev fuel cur = some l →
    l.head? = some cur ∧
    (∃ z, l.getLast? = some z ∧ lookupKey prev z = none) ∧
    l.Chain' (fun a b => lookupKey prev a = some b)
  | 0, cur, l, h => by
    unfold walkPrev at h
    cases h
  | fuel + 1, cur, l, h => by
    unfold walkPrev at h
    split at h
    case _ hnone =>
      cases h
      exact ⟨rfl, ⟨cur, rfl, hnone⟩, List.chain'_singleton cur⟩
    case _ m hm =>
      obtain ⟨l2, hl2, hl⟩ := Option.map_eq_some'.mp h
      subst hl
      obtain ⟨hh2, ⟨z, hz2, hzn⟩, hchain2⟩ := walkPrev_spec prev fuel m l2 hl2
      cases l2 with
      | nil => cases hh2
      | cons b t =>
        have hbm : b = m := by simpa using hh2
        subst hbm
        refine ⟨rfl, ⟨z, ?_, hzn⟩, ?_⟩
        · rw [List.getLast?_cons_cons]
          exact hz2
        · exact List.chain'_cons.mpr ⟨hm, hchain2⟩

/-- Facts about a predecessor chain starting at a visited node: every chain
node is visited, visit positions never grow along it, the chain repeats no
node, and the reversed chain is a walk of cost equal to the difference of
the labels at its two ends. -/
theorem chain_facts {nav : GPSNavigator} {s : Node} {st : St}
    (inv : Inv nav s st) :
    ∀ (l : List Node) (cur : Node), l.head? = some cur →
    l.Chain' (fun a b => lookupKey st.prev a = some b) →
    cur ∈ st.visited → ∀ (dc : ℚ), st.dist cur = (dc : WithTop ℚ) →
    (∀ x ∈ l, x ∈ st.visited) ∧
    (∀ x ∈ l, List.indexOf x st.visited ≤ List.indexOf cur st.visited) ∧
    l.Nodup ∧
    (∀ z, l.getLast? = some z → ∃ dz : ℚ, st.dist z = (dz : WithTop ℚ) ∧
      PathCost nav.graph l.reverse (dc - dz)) := by
  intro l
  induction l with
  | nil =>
    intro cur hh
    cases hh
  | cons x rest ih =>
    intro cur hh hchain hcv dc hdc
    have hx : x = cur := by simpa using hh
    subst hx
    cases rest with
    | nil =>
      refine ⟨?_, ?_, List.nodup_singleton x, ?_⟩
      · intro y hy
        rw [List.mem_singleton] at hy
        rw [hy]
        exact hcv
      · intro y hy
        rw [List.mem_singleton] at hy
        rw [hy]
      · intro z hz
        simp only [List.getLast?_singleton, Option.some.injEq] at hz
        subst hz
        refine ⟨dc, hdc, ?_⟩
        have : dc - dc = 0 := sub_self dc
        rw [this]
        exact PathCost.single x
    | cons b t =>
      have hsplit := List.chain'_cons.mp hchain
      have hrel : lookupKey st.prev x = some b := hsplit.1
      obtain ⟨hbv, hidx, w, hw, hdd⟩ := inv.prev_spec x b hrel
      obtain ⟨db, hdb⟩ := WithTop.ne_top_iff_exists.mp (inv.vfin b hbv)
      have hdcw : dc = db + w := by
        rw [hdc, ← hdb, ← WithTop.coe_add] at hdd
        exact_mod_cast hdd
      obtain ⟨hmem2, hle2, hnodup2, hlast2⟩ :=
        ih b rfl hsplit.2 hbv db hdb.symm
      have hbi : List.indexOf b st.visited < List.indexOf x st.visited := hidx hcv
      refine ⟨?_, ?_, ?_, ?_⟩
      · intro y hy
        rcases List.mem_cons.mp hy with hy | hy
        · rw [hy]
          exact hcv
        · exact hmem2 y hy
      · intro y hy
        rcases List.mem_cons.mp hy with hy | hy
        · rw [hy]
        · exact le_trans (hle2 y hy) (le_of_lt hbi)
      · refine List.nodup_cons.mpr ⟨?_, hnodup2⟩
        intro hmem
        have := hle2 x hmem
        omega
      · intro z hz
        rw [List.getLast?_cons_cons] at hz
        obtain ⟨dz, hdz, hpc⟩ := hlast2 z hz
        refine ⟨dz, hdz, ?_⟩
        have hrev : (x :: b :: t).reverse = (b :: t).reverse ++ [x] := by
          rw [List.reverse_cons]
        rw [hrev]
        have hlastrev : (b :: t).reverse.getLast? = some b := by
          rw [List.getLast?_reverse]
          rfl
        have := pathCost_snoc hpc hlastrev hw
        have harith : db - dz + w = dc - dz := by
          rw [hdcw]
          ring
        rw [harith] at this
        exact this

theorem distInit_self (s : Node) : distInit s s = ((0 : ℚ) : WithTop ℚ) :=
  if_pos rfl

theorem distInit_other (s : Node) {n : Node} (h : n ≠ s) : distInit s n = ⊤ :=
  if_neg h

/-- The invariant holds in the initial state of a dijkstra call. -/
theorem inv_init (nav : GPSNavigator) (s : Node) (steps0 : List String) :
    Inv nav s ⟨distInit s, [], [], [((0 : ℚ), s)], steps0⟩ := by
  refine ⟨?_, ?_, ?_, ?_, ?_, ?_, ?_, ?_, ?_, ?_, ?_, ?_⟩
  · exact List.pairwise_singleton qle ((0 : ℚ), s)
  · intro e he
    rw [List.mem_singleton] at he
    rw [he]
    show distInit s s ≤ _
    rw [distInit_self]
  · intro n hn c hc
    replace hc : distInit s n = (c : WithTop ℚ) := hc
    by_cases hns : n = s
    · rw [hns, distInit_self] at hc
      have hc0 : c = 0 := by exact_mod_cast hc.symm
      show ((c, n) : ℚ × Node) ∈ [((0 : ℚ), s)]
      rw [hc0, hns]
      exact List.mem_singleton.mpr rfl
    · exfalso
      rw [distInit_other s hns] at hc
      exact WithTop.top_ne_coe hc
  · exact List.nodup_nil
  · intro n hn
    cases hn
  · exact distInit_self s
  · intro hs
    refine ⟨rfl, rfl, rfl, ?_⟩
    intro n hn
    exact distInit_other s hn
  · intro x y hxy
    cases hxy
  · rfl
  · intro n c hc
    replace hc : distInit s n = (c : WithTop ℚ) := hc
    by_cases hns : n = s
    · rw [hns, distInit_self] at hc
      have hc0 : c = 0 := by exact_mod_cast hc.symm
      rw [hc0, hns]
      exact ⟨[s], PathCost.single s, rfl, rfl⟩
    · exfalso
      rw [distInit_other s hns] at hc
      exact WithTop.top_ne_coe hc
  · intro _ n hn
    cases hn
  · intro x hxs hfin
    exact absurd (distInit_other s hxs) hfin

/-- The complete specification of any dijkstra call that returns a result:
a successful result carries a duplicate-free walk from start to destination
whose cost is exactly the reported distance and (for non-negative weights)
minimal among all walks; an unsuccessful result carries the empty path and
infinite distance; and on a non-negative graph with a reachable destination
any returned result is successful. -/
theorem dijkstra_some_spec (nav : GPSNavigator) (s en : Node) (r : Result)
    (hr : dijkstra nav s en = some r) :
    (r.success = true →
      r.path.head? = some s ∧ r.path.getLast? = some en ∧ r.path.Nodup ∧
      ∃ d : ℚ, r.distance = (d : WithTop ℚ) ∧ PathCost nav.graph r.path d ∧
        (Nonneg nav.graph → ∀ p (k : ℚ), PathCost nav.graph p k →
          p.head? = some s → p.getLast? = some en → d ≤ k)) ∧
    (r.success = false → r.path = [] ∧ r.distance = ⊤) ∧
    (Nonneg nav.graph → Reachable nav.graph s en → r.success = true) := by
  unfold dijkstra at hr
  split at hr
  case _ sName eName hsName heName =>
    split at hr
    case _ => cases hr
    case _ st2 hloopEq =>
      split at hr
      case _ => cases hr
      case _ revPath hwalk =>
        obtain ⟨inv2, hdisj⟩ := loop_master nav s en (domOf nav.graph s)
          (dijkstraFuel nav.graph (domOf nav.graph s))
          ⟨distInit s, [], [], [((0 : ℚ), s)], initSteps sName eName⟩ st2 hloopEq
          (inv_init nav s _) (by intro m hm; cases hm)
        obtain ⟨hwh, ⟨z, hwz, hzn⟩, hchain⟩ :=
          walkPrev_spec st2.prev _ en revPath hwalk
        by_cases hcheck : revPath.reverse.head? = some s
        · have hz_s : z = s := by
            rw [List.head?_reverse, hwz] at hcheck
            exact Option.some.injEq _ _ ▸ hcheck
          rw [if_pos hcheck] at hr
          by_cases hdom : en ∈ domOf nav.graph s
          · rw [if_pos hdom] at hr
            cases hr
            have henvis : en ∈ st2.visited := by
              by_contra henv
              rcases hdisj with h | ⟨hqe, hrelall⟩
              · exact henv h
              · have hdtop : st2.dist en = ⊤ := by
                  by_contra hne
                  obtain ⟨c, hc⟩ := WithTop.ne_top_iff_exists.mp hne
                  have := inv2.entry en henv c hc.symm
                  rw [hqe] at this
                  cases this
                cases revPath with
                | nil => cases hwh
                | cons x t =>
                  have hx : x = en := by simpa using hwh
                  subst hx
                  cases t with
                  | nil =>
                    have hzx : z = x := by
                      have := hwz
                      simp only [List.getLast?_singleton, Option.some.injEq] at this
                      exact this.symm
                    have hens : x = s := by rw [← hzx, hz_s]
                    rw [hens, inv2.dist_s] at hdtop
                    exact WithTop.coe_ne_top hdtop
                  | cons b t2 =>
                    have hrel := (List.chain'_cons.mp hchain).1
                    obtain ⟨hbv, _, w, _, hdd⟩ := inv2.prev_spec x b hrel
                    obtain ⟨db, hdb⟩ :=
                      WithTop.ne_top_iff_exists.mp (inv2.vfin b hbv)
                    rw [hdtop, ← hdb, ← WithTop.coe_add] at hdd
                    exact WithTop.top_ne_coe hdd
            obtain ⟨dc, hdc⟩ := WithTop.ne_top_iff_exists.mp (inv2.vfin en henvis)
            obtain ⟨hmemv, hidxle, hnodup, hlastf⟩ :=
              chain_facts inv2 revPath en hwh hchain henvis dc hdc.symm
            obtain ⟨dz, hdz, hpc⟩ := hlastf z hwz
            have hdz0 : dz = 0 := by
              rw [hz_s, inv2.dist_s] at hdz
              exact_mod_cast hdz.symm
            rw [hdz0, sub_zero] at hpc
            refine ⟨?_, ?_, ?_⟩
            · intro _
              refine ⟨hcheck, ?_, List.nodup_reverse.mpr hnodup, dc, hdc.symm, hpc, ?_⟩
              · rw [List.getLast?_reverse]
                exact hwh
              · intro hw p k hp hph hpl
                have := inv2.mins hw en henvis p k hp hph hpl
                rw [← hdc] at this
                exact_mod_cast this
            · intro h
              cases h
            · intro _ _
              rfl
          · rw [if_neg hdom] at hr
            cases hr
        · rw [if_neg hcheck] at hr
          cases hr
          refine ⟨?_, ?_, ?_⟩
          · intro h
            cases h
          · intro _
            exact ⟨rfl, rfl⟩
          · intro hw hreach
            exfalso
            have hs_vis : s ∈ st2.visited := by
              by_contra hs
              obtain ⟨hv0, hp0, hq0, _⟩ := inv2.fresh hs
              rcases hdisj with h | ⟨hqe, _⟩
              · rw [hv0] at h
                cases h
              · rw [hq0] at hqe
                cases hqe
            have henvis : en ∈ st2.visited := by
              rcases hdisj with h | ⟨hqe, hrelall⟩
              · exact h
              · by_contra henv
                obtain ⟨p, k, hp, hph, hpl⟩ := hreach
                obtain ⟨e, hmem, _⟩ := frontier_path inv2 hrelall hw hp s 0 hph
                  hs_vis inv2.dist_s en hpl henv
                rw [hqe] at hmem
                cases hmem
            obtain ⟨dc, hdc⟩ := WithTop.ne_top_iff_exists.mp (inv2.vfin en henvis)
            obtain ⟨hmemv, hidxle, hnodup, hlastf⟩ :=
              chain_facts inv2 revPath en hwh hchain henvis dc hdc.symm
            have hzmem : z ∈ revPath := List.mem_of_getLast?_eq_some hwz
            have hzvis : z ∈ st2.visited := hmemv z hzmem
            have hz_s : z = s := by
              by_contra hzs
              exact inv2.fin_prev z hzs (inv2.vfin z hzvis) hzn
            apply hcheck
            rw [List.head?_reverse, hwz, hz_s]
  case _ h1 h2 =>
    cases hr

/-! Claim theorems. -/

/-- C5 counterexample: add_road accepts a negative weight and the entry
(1, -1) enters the adjacency list of node 0, refuting the claim that no
negative weight ever enters either adjacency list. -/
theorem C5_counterexample :
    ((1 : Node), (-1 : ℚ)) ∈ adjOf (add_road (mkNavigator []) 0 1 (-1)).graph 0 ∧
    (-1 : ℚ) < 0 := by
  constructor
  · rw [mem_adjOf_add_road]
    exact Or.inr (Or.inl ⟨rfl, rfl⟩)
  · decide

/-- C5 amended: add_road performs no weight validation at all; for every
weight, including a negative one, it appends (to, w) to from's adjacency
list and (from, w) to to's adjacency list (twice to the same list when the
endpoints coincide), preserving insertion order and leaving every other
adjacency list unchanged. -/
theorem C5_add_road_appends (nav : GPSNavigator) (a b : Node) (w : ℚ) :
    (a ≠ b → adjOf (add_road nav a b w).graph a = adjOf nav.graph a ++ [(b, w)]) ∧
    (a ≠ b → adjOf (add_road nav a b w).graph b = adjOf nav.graph b ++ [(a, w)]) ∧
    (a = b → adjOf (add_road nav a b w).graph a =
      adjOf nav.graph a ++ [(b, w), (a, w)]) ∧
    (∀ x, x ≠ a → x ≠ b → adjOf (add_road nav a b w).graph x = adjOf nav.graph x) := by
  refine ⟨?_, ?_, ?_, ?_⟩
  · intro hab
    rw [adjOf_add_road, if_neg hab, if_pos rfl]
  · intro hab
    rw [adjOf_add_road, if_pos rfl, if_neg (Ne.symm hab)]
  · intro hab
    rw [adjOf_add_road, if_pos hab, if_pos rfl, List.append_assoc]
    rfl
  · intro x hxa hxb
    rw [adjOf_add_road, if_neg hxb, if_neg hxa]

/-- C5 witness: the amended statement evaluated on the city navigator for
the road (0, 1, -1). -/
theorem C5_witness :
    adjOf (add_road (mkNavigator []) 0 1 (-1)).graph 0 =
      adjOf (mkNavigator []).graph 0 ++ [(1, -1)] ∧
    adjOf (add_road (mkNavigator []) 0 1 (-1)).graph 1 =
      adjOf (mkNavigator []).graph 1 ++ [(0, -1)] :=
  ⟨(C5_add_road_appends (mkNavigator []) 0 1 (-1)).1 (by decide),
   (C5_add_road_appends (mkNavigator []) 0 1 (-1)).2.1 (by decide)⟩

/-- C7 counterexample: a negative average speed is accepted silently and
produces a negative duration, refuting the claim that non-positive speeds
fail with an InvalidConfiguration error. -/
theorem C7_counterexample :
    calculate_route_time 60 (-30) = some (-120) ∧ (-120 : ℚ) < 0 := by
  constructor
  · rw [calculate_route_time, if_neg (by norm_num)]
    norm_num
  · norm_num

/-- C7 amended: calculate_route_time validates nothing. A zero speed raises
ZeroDivisionError (none); every non-zero speed, positive or negative, is
accepted and yields distance / speed * 60 minutes; in particular
calculate_route_time(60, 30) = 120. -/
theorem C7_route_time (d s : ℚ) (hs : s ≠ 0) :
    calculate_route_time d s = some (d / s * 60) ∧
    calculate_route_time d 0 = none ∧
    calculate_route_time 60 30 = some 120 := by
  refine ⟨?_, ?_, ?_⟩
  · rw [calculate_route_time, if_neg hs]
  · rw [calculate_route_time, if_pos rfl]
  · rw [calculate_route_time, if_neg (by norm_num)]
    norm_num

/-- C7 witness: the amended statement at distance 60 and speed 30. -/
theorem C7_witness :
    calculate_route_time 60 30 = some (60 / 30 * 60) ∧ (60 / 30 * 60 : ℚ) = 120 :=
  ⟨(C7_route_time 60 30 (by norm_num)).1, by norm_num⟩

/-- C4: a query whose source or destination is missing from the graph of any
navigator the program can build raises (none: the KeyError from the
node_names f-string lookup, the missing-node condition surfaced to the
caller); no default result is fabricated. Missing from the graph implies
missing from the name table because the twelve built-in names are keys of
the city graph and add_road only ever adds keys. -/
theorem C4_absent_node_fails (roads : List (Node × Node × ℚ)) (S D : Node)
    (h : S ∉ keysOf (mkNavigator roads).graph ∨
      D ∉ keysOf (mkNavigator roads).graph) :
    dijkstra (mkNavigator roads) S D = none := by
  have hOr : lookupName (mkNavigator roads) S = none ∨
      lookupName (mkNavigator roads) D = none := by
    rcases h with h | h
    · left
      cases hl : lookupName (mkNavigator roads) S with
      | none => rfl
      | some nm => exact absurd (named_mem_keys roads S nm hl) h
    · right
      cases hl : lookupName (mkNavigator roads) D with
      | none => rfl
      | some nm => exact absurd (named_mem_keys roads D nm hl) h
  unfold dijkstra
  rcases hOr with hnone | hnone
  · rw [hnone]
  · rw [hnone]
    cases lookupName (mkNavigator roads) S <;> rfl

/-- C4 witness: querying the untouched city navigator for absent node 999
raises. -/
theorem C4_witness : dijkstra (mkNavigator []) 0 999 = none :=
  C4_absent_node_fails [] 0 999 (Or.inr (by decide))

/-- C10: every successful dijkstra result carries a simple path: the
predecessor walk visits strictly earlier-finalized nodes, so the
reconstructed path repeats no node, and it leads from the source to the
destination. -/
theorem C10_simple_path (nav : GPSNavigator) (S D : Node) (r : Result)
    (hr : dijkstra nav S D = some r) (hs : r.success = true) :
    r.path.Nodup ∧ r.path.head? = some S ∧ r.path.getLast? = some D := by
  obtain ⟨hsucc, _, _⟩ := dijkstra_some_spec nav S D r hr
  obtain ⟨hh, hl, hnd, _⟩ := hsucc hs
  exact ⟨hnd, hh, hl⟩

/-- C2: the reported distance of every successful dijkstra result is exactly
(the model uses exact rational arithmetic, so within any tolerance) the sum
of recorded adjacency-list edge weights along the consecutive pairs of the
returned path. -/
theorem C2_path_sum (nav : GPSNavigator) (S D : Node) (r : Result)
    (hr : dijkstra nav S D = some r) (hs : r.success = true) :
    ∃ d : ℚ, r.distance = (d : WithTop ℚ) ∧ PathCost nav.graph r.path d := by
  obtain ⟨hsucc, _, _⟩ := dijkstra_some_spec nav S D r hr
  obtain ⟨_, _, _, d, hd, hpc, _⟩ := hsucc hs
  exact ⟨d, hd, hpc⟩

/-- C1: on any navigator state with non-negative edge weights, for a source
and destination present in the graph with the destination reachable, a
completed dijkstra call succeeds and returns a path from source to
destination whose cost equals the reported distance and is minimal: no walk
between the endpoints has strictly smaller total weight. -/
theorem C1_dijkstra_optimal (nav : GPSNavigator) (S D : Node)
    (hw : Nonneg nav.graph)
    (hS : S ∈ keysOf nav.graph) (hD : D ∈ keysOf nav.graph)
    (hreach : Reachable nav.graph S D)
    (r : Result) (hr : dijkstra nav S D = some r) :
    r.success = true ∧ r.path.head? = some S ∧ r.path.getLast? = some D ∧
    ∃ d : ℚ, r.distance = (d : WithTop ℚ) ∧ PathCost nav.graph r.path d ∧
      ∀ p (k : ℚ), PathCost nav.graph p k → p.head? = some S →
        p.getLast? = some D → d ≤ k := by
  obtain ⟨hsucc, _, hcomp⟩ := dijkstra_some_spec nav S D r hr
  have hs := hcomp hw hreach
  obtain ⟨hh, hl, _, d, hd, hpc, hmin⟩ := hsucc hs
  exact ⟨hs, hh, hl, d, hd, hpc, hmin hw⟩

/-- C1 witness: on the city map, the query from node 0 to node 2 completes,
succeeds and returns a walk between the endpoints. -/
theorem C1_witness :
    ∃ r, dijkstra (mkNavigator []) 0 2 = some r ∧ r.success = true ∧
      r.path.head? = some 0 ∧ r.path.getLast? = some 2 := by
  have hreach : Reachable (mkNavigator []).graph 0 2 :=
    ⟨[0, 1, 2], 2.1 + (1.9 + 0),
      PathCost.cons (by decide) (PathCost.cons (by decide) (PathCost.single 2)),
      rfl, rfl⟩
  cases hr : dijkstra (mkNavigator []) 0 2 with
  | none =>
    have hsome : (dijkstra (mkNavigator []) 0 2).isSome = true := rfl
    rw [hr] at hsome
    exact Bool.noConfusion hsome
  | some r =>
    have h := C1_dijkstra_optimal (mkNavigator []) 0 2
      (nonneg_mkNavigator [] (by intro q hq; cases hq)) (by decide) (by decide)
      hreach r hr
    exact ⟨r, rfl, h.1, h.2.1, h.2.2.1⟩

/-- C2 witness: on the city map, the successful query from node 0 to node 11
reports a distance realized by summing edge weights along its path. -/
theorem C2_witness :
    ∃ r, dijkstra (mkNavigator []) 0 11 = some r ∧
      ∃ d : ℚ, r.distance = (d : WithTop ℚ) ∧
        PathCost (mkNavigator []).graph r.path d := by
  have hsucc : (dijkstra (mkNavigator []) 0 11).map Result.success = some true := rfl
  cases hr : dijkstra (mkNavigator []) 0 11 with
  | none =>
    rw [hr] at hsucc
    cases hsucc
  | some r =>
    rw [hr] at hsucc
    simp only [Option.map_some', Option.some.injEq] at hsucc
    obtain ⟨d, hd, hpc⟩ := C2_path_sum (mkNavigator []) 0 11 r hr hsucc
    exact ⟨r, rfl, d, hd, hpc⟩

/-- C10 witness: on the city map, the successful query from node 3 to node
10 returns a duplicate-free path. -/
theorem C10_witness :
    ∃ r, dijkstra (mkNavigator []) 3 10 = some r ∧ r.path.Nodup := by
  have hsucc : (dijkstra (mkNavigator []) 3 10).map Result.success = some true := rfl
  cases hr : dijkstra (mkNavigator []) 3 10 with
  | none =>
    rw [hr] at hsucc
    cases hsucc
  | some r =>
    rw [hr] at hsucc
    simp only [Option.map_some', Option.some.injEq] at hsucc
    obtain ⟨hnd, _, _⟩ := C10_simple_path (mkNavigator []) 3 10 r hr hsucc
    exact ⟨r, rfl, hnd⟩

/-- C9 amended: on every navigator built through add_road whose added roads
carry non-negative weights, for endpoints present in the graph with one
reachable from the other, any two completed opposite queries report the same
distance. -/
theorem C9_symmetric (roads : List (Node × Node × ℚ))
    (hw : ∀ q ∈ roads, 0 ≤ q.2.2) (A B : Node) (r1 r2 : Result)
    (hr1 : dijkstra (mkNavigator roads) A B = some r1)
    (hr2 : dijkstra (mkNavigator roads) B A = some r2)
    (hA : A ∈ keysOf (mkNavigator roads).graph)
    (hB : B ∈ keysOf (mkNavigator roads).graph)
    (hreach : Reachable (mkNavigator roads).graph A B) :
    r1.distance = r2.distance := by
  have hnn := nonneg_mkNavigator roads hw
  have hsym := edgeSymm_mkNavigator roads
  obtain ⟨hsucc1, _, hcomp1⟩ := dijkstra_some_spec _ A B r1 hr1
  obtain ⟨hsucc2, _, hcomp2⟩ := dijkstra_some_spec _ B A r2 hr2
  obtain ⟨hh1, hl1, _, d1, hd1, hpc1, hmin1⟩ := hsucc1 (hcomp1 hnn hreach)
  obtain ⟨hh2, hl2, _, d2, hd2, hpc2, hmin2⟩ :=
    hsucc2 (hcomp2 hnn (reachable_symm hsym hreach))
  have h12 : d1 ≤ d2 := hmin1 hnn r2.path.reverse d2 (pathCost_reverse hsym hpc2)
    (by rw [List.head?_reverse]; exact hl2)
    (by rw [List.getLast?_reverse]; exact hh2)
  have h21 : d2 ≤ d1 := hmin2 hnn r1.path.reverse d1 (pathCost_reverse hsym hpc1)
    (by rw [List.head?_reverse]; exact hl1)
    (by rw [List.getLast?_reverse]; exact hh1)
  rw [hd1, hd2, le_antisymm h12 h21]

set_option maxRecDepth 40000

/-- A navigator with three additional negative roads, used to refute the
unconditional symmetry claim. -/
def negNavigator : GPSNavigator :=
  mkNavigator [(0, 1, -1000), (0, 2, -500), (1, 2, -2000)]

/-- C9 counterexample: with negative weights admitted by add_road, both
opposite queries between the present, mutually reachable nodes 0 and 1
complete, yet report different distances (-1000 and -2500). -/
theorem C9_counterexample :
    ∃ r1 r2, dijkstra negNavigator 0 1 = some r1 ∧
      dijkstra negNavigator 1 0 = some r2 ∧
      0 ∈ keysOf negNavigator.graph ∧ 1 ∈ keysOf negNavigator.graph ∧
      Reachable negNavigator.graph 0 1 ∧ r1.distance ≠ r2.distance := by
  have h1 : (dijkstra negNavigator 0 1).map Result.distance =
      some ((-1000 : ℚ) : WithTop ℚ) := rfl
  have h2 : (dijkstra negNavigator 1 0).map Result.distance =
      some ((-2500 : ℚ) : WithTop ℚ) := rfl
  cases hr1 : dijkstra negNavigator 0 1 with
  | none =>
    rw [hr1] at h1
    cases h1
  | some r1 =>
    cases hr2 : dijkstra negNavigator 1 0 with
    | none =>
      rw [hr2] at h2
      cases h2
    | some r2 =>
      rw [hr1] at h1
      rw [hr2] at h2
      simp only [Option.map_some', Option.some.injEq] at h1 h2
      refine ⟨r1, r2, rfl, rfl, by decide, by decide, ?_, ?_⟩
      · exact ⟨[0, 1], 2.1 + 0,
          PathCost.cons (by decide) (PathCost.single 1), rfl, rfl⟩
      · rw [h1, h2]
        intro hcontra
        have : (-1000 : ℚ) = -2500 := by exact_mod_cast hcontra
        norm_num at this

/-- C9 witness: the amended statement holds on the city map between nodes 1
and 8, where both opposite queries complete. -/
theorem C9_witness :
    ∃ r1 r2, dijkstra (mkNavigator []) 1 8 = some r1 ∧
      dijkstra (mkNavigator []) 8 1 = some r2 ∧ r1.distance = r2.distance := by
  have hreach : Reachable (mkNavigator []).graph 1 8 :=
    ⟨[1, 7, 8], 3.2 + (2.0 + 0),
      PathCost.cons (by decide) (PathCost.cons (by decide) (PathCost.single 8)),
      rfl, rfl⟩
  cases hr1 : dijkstra (mkNavigator []) 1 8 with
  | none =>
    have hsome : (dijkstra (mkNavigator []) 1 8).isSome = true := rfl
    rw [hr1] at hsome
    exact Bool.noConfusion hsome
  | some r1 =>
    cases hr2 : dijkstra (mkNavigator []) 8 1 with
    | none =>
      have hsome : (dijkstra (mkNavigator []) 8 1).isSome = true := rfl
      rw [hr2] at hsome
      exact Bool.noConfusion hsome
    | some r2 =>
      exact ⟨r1, r2, rfl, rfl, C9_symmetric [] (by intro q hq; cases hq) 1 8 r1 r2
        hr1 hr2 (by decide) (by decide) hreach⟩

/-- A walk can never leave a set of nodes that is closed under the adjacency
relation. -/
theorem pathCost_closed {g : Graph} {S : List Node}
    (hcl : ∀ x ∈ S, ∀ e ∈ adjOf g x, e.1 ∈ S) :
    ∀ {p : List Node} {c : ℚ}, PathCost g p c →
    ∀ a, p.head? = some a → a ∈ S → ∀ y, p.getLast? = some y → y ∈ S := by
  intro p c hp
  induction hp with
  | single a =>
    intro a2 hh ha y hl
    simp only [List.head?_cons, Option.some.injEq] at hh
    simp only [List.getLast?_singleton, Option.some.injEq] at hl
    rw [← hl, hh]
    exact ha
  | cons he hbc ih =>
    rename_i a b w k rest
    intro a2 hh ha y hl
    simp only [List.head?_cons, Option.some.injEq] at hh
    rw [List.getLast?_cons_cons] at hl
    rw [← hh] at ha
    have hbS : b ∈ S := hcl a ha (b, w) he
    exact ih b rfl hbS y hl

/-- C3: the program cannot produce the claimed quiet negative result for an
unreachable destination. On the navigator extended with the isolated road
(20, 21), node 20 is present in the graph and unreachable from node 0, yet
dijkstra(0, 20) raises (the KeyError of the node_names lookup in the
Destination step line) instead of returning success=false with empty path
and infinite distance. -/
theorem C3_unreachable_raises :
    20 ∈ keysOf (mkNavigator [(20, 21, 1)]).graph ∧
    ¬Reachable (mkNavigator [(20, 21, 1)]).graph 0 20 ∧
    dijkstra (mkNavigator [(20, 21, 1)]) 0 20 = none := by
  refine ⟨by decide, ?_, rfl⟩
  rintro ⟨p, c, hp, hh, hl⟩
  have hcl : ∀ x ∈ [0, 1, 2, 3, 4, 5, 6, 7, 8, 9, 10, 11],
      ∀ e ∈ adjOf (mkNavigator [(20, 21, 1)]).graph x,
      e.1 ∈ [0, 1, 2, 3, 4, 5, 6, 7, 8, 9, 10, 11] := by decide
  have h20 := pathCost_closed hcl hp 0 hh (by decide) 20 hl
  exact absurd h20 (by decide)

/-- C8 counterexample: node 20 is present in the graph after
add_road(20, 21, 1), yet dijkstra(20, 20) raises (KeyError on the missing
node_names entry) instead of returning the claimed distance-0 single-node
success. -/
theorem C8_counterexample :
    20 ∈ keysOf (mkNavigator [(20, 21, 1)]).graph ∧
    dijkstra (mkNavigator [(20, 21, 1)]) 20 20 = none :=
  ⟨by decide, rfl⟩

/-- The start node is always a key of the distances dict. -/
theorem mem_domOf_self (g : Graph) (s : Node) : s ∈ domOf g s := by
  unfold domOf
  by_cases h : s ∈ keysOf g
  · rw [if_pos h]
    exact h
  · rw [if_neg h]
    exact List.mem_append_right _ (by simp)

/-- Popping the start as the destination: the self-query loop exits through
the break on its first iteration, with the start visited and the two final
step lines appended. -/
theorem dijkstraLoop_self (nav : GPSNavigator) (A : Node) (nm : String)
    (hA : lookupName nav A = some nm) (dom : List Node) (k : Nat)
    (steps0 : List String) :
    dijkstraLoop nav A dom (k + 1) ⟨distInit A, [], [], [(0, A)], steps0⟩ =
      some ⟨distInit A, [], [A], [],
        (steps0 ++ ["Exploring " ++ nm ++ " (Distance: " ++ fmt1 0 ++ "km)"]) ++
        ["✅ Reached destination: " ++ nm]⟩ := by
  rw [dijkstraLoop]
  split
  case _ => simp_all
  case _ c n rest hq =>
    injection hq with hq1 hq2
    injection hq1 with hc hn
    subst hc
    subst hn
    subst hq2
    rw [if_neg (List.not_mem_nil A), hA]
    split
    case _ h => cases h
    case _ nm2 h =>
      injection h with h2
      subst h2
      rw [if_pos rfl]
      rfl

/-- C8 amended: for every navigator reached through add_road and every node
carrying a node_names entry, the route query from the node to itself
completes and returns success with the single-node path and distance 0. -/
theorem C8_self_query (roads : List (Node × Node × ℚ)) (A : Node) (nm : String)
    (hA : lookupName (mkNavigator roads) A = some nm) :
    ∃ r, dijkstra (mkNavigator roads) A A = some r ∧ r.success = true ∧
      r.path = [A] ∧ r.distance = ((0 : ℚ) : WithTop ℚ) := by
  obtain ⟨k, hk⟩ : ∃ k, dijkstraFuel (mkNavigator roads).graph
      (domOf (mkNavigator roads).graph A) = k + 1 := ⟨_, Nat.add_comm 1 _⟩
  have hloop := dijkstraLoop_self (mkNavigator roads) A nm hA
    (domOf (mkNavigator roads).graph A) k (initSteps nm nm)
  have hd : dijkstra (mkNavigator roads) A A =
      some ⟨[A], distInit A A, [A],
        ((initSteps nm nm ++
          ["Exploring " ++ nm ++ " (Distance: " ++ fmt1 0 ++ "km)"]) ++
          ["✅ Reached destination: " ++ nm]), true⟩ := by
    unfold dijkstra
    rw [hA]
    split
    case _ sName eName h1 h2 =>
      injection h1 with h1
      injection h2 with h2
      subst h1
      subst h2
      rw [hk, hloop]
      split
      case _ h => cases h
      case _ st hst =>
        injection hst with hst
        subst hst
        split
        case _ hw =>
          have hw2 : some [A] = (none : Option (List Node)) := hw
          cases hw2
        case _ revPath hw =>
          have hw2 : some [A] = some revPath := hw
          injection hw2 with hw2
          subst hw2
          rw [if_pos (show [A].reverse.head? = some A from rfl),
            if_pos (mem_domOf_self (mkNavigator roads).graph A)]
          rfl
    case _ h1 h2 =>
      exact (h2 nm nm rfl rfl).elim
  refine ⟨_, hd, rfl, rfl, distInit_self A⟩

/-- C8 witness: node 3 of the city map is named, and the self-query on it
succeeds with path [3] and distance 0. -/
theorem C8_witness :
    lookupName (mkNavigator []) 3 = some "Elm St & 1st Ave" ∧
    ∃ r, dijkstra (mkNavigator []) 3 3 = some r ∧ r.success = true ∧
      r.path = [3] ∧ r.distance = ((0 : ℚ) : WithTop ℚ) := by
  have hA : lookupName (mkNavigator []) 3 = some "Elm St & 1st Ave" := rfl
  exact ⟨hA, C8_self_query [] 3 "Elm St & 1st Ave" hA⟩

/-- Indexing the consecutive-pairs list: entry k pairs positions k and k+1
of the underlying list. -/
theorem zip_tail_getElem :
    ∀ (l : List Node) (k : Nat) (a b : Node),
    l[k]? = some a → l[k + 1]? = some b →
    (l.zip l.tail)[k]? = some (a, b) := by
  intro l
  induction l with
  | nil =>
    intro k a b ha _
    simp at ha
  | cons x xs ih =>
    intro k a b ha hb
    cases xs with
    | nil =>
      cases k with
      | zero => simp at hb
      | succ k2 => simp at ha
    | cons y ys =>
      cases k with
      | zero =>
        rw [List.getElem?_cons_zero] at ha
        injection ha with ha
        rw [List.getElem?_cons_succ, List.getElem?_cons_zero] at hb
        injection hb with hb
        subst ha
        subst hb
        simp [List.zip_cons_cons]
      | succ k2 =>
        rw [List.getElem?_cons_succ] at ha hb
        have hrec := ih k2 a b ha hb
        show ((x, y) :: (y :: ys).zip ((y :: ys).tail))[k2 + 1]? = some (a, b)
        rw [List.getElem?_cons_succ]
        exact hrec

/-- The direction loop from any index past the first: one line per pair,
numbered i+k+2, phrased Arrive exactly on the pair of index lastIx, carrying
the first matching weight of the segment and the name of its target. -/
theorem dirGo_spec (nav : GPSNavigator) (lastIx : Nat) :
    ∀ (L : List (Node × Node)) (i : Nat) (ls : List String),
    dirGo nav lastIx L i = some ls → 1 ≤ i →
    ls.length = L.length ∧
    ∀ k a b, L[k]? = some (a, b) →
      ∃ w nm, findWeight nav.graph a b = some w ∧
        lookupName nav b = some nm ∧
        ls[k]? = some (toString (i + k + 2) ++ ". " ++
          (if i + k = lastIx then "Arrive at " else "Continue to ") ++
          nm ++ " (" ++ fmt1 w ++ "km)") := by
  intro L
  induction L with
  | nil =>
    intro i ls h _
    have h2 : some ([] : List String) = some ls := h
    injection h2 with h2
    subst h2
    refine ⟨rfl, ?_⟩
    intro k a b hk
    simp at hk
  | cons e rest ih =>
    obtain ⟨cur, nxt⟩ := e
    intro i ls h hi
    rw [dirGo] at h
    split at h
    case _ => cases h
    case _ w hfw =>
      have hi0 : ¬ i = 0 := by omega
      simp only [if_neg hi0] at h
      split at h
      case _ => cases h
      case _ nm2 hnm2 =>
        rw [Option.map_eq_some'] at h
        obtain ⟨ls2, hls2, hmap⟩ := h
        have hls : ls = (toString (i + 2) ++ ". " ++
            (if i = lastIx then "Arrive at " else "Continue to ") ++
            nm2 ++ " (" ++ fmt1 w ++ "km)") :: ls2 := by
          rw [← hmap]
          rfl
        subst hls
        obtain ⟨hlen2, hidx2⟩ := ih (i + 1) ls2 hls2 (by omega)
        refine ⟨by simp [hlen2], ?_⟩
        intro k a b hk
        cases k with
        | zero =>
          rw [List.getElem?_cons_zero] at hk
          injection hk with hk
          injection hk with hk1 hk2
          subst hk1
          subst hk2
          exact ⟨w, nm2, hfw, hnm2,
            by simp only [Nat.add_zero, List.getElem?_cons_zero]⟩
        | succ k2 =>
          rw [List.getElem?_cons_succ] at hk
          obtain ⟨w2, nmk, hfw2, hnmk, hline⟩ := hidx2 k2 a b hk
          rw [show i + 1 + k2 = i + (k2 + 1) from by omega] at hline
          exact ⟨w2, nmk, hfw2, hnmk, by rw [List.getElem?_cons_succ]; exact hline⟩

set_option maxHeartbeats 1000000 in
/-- C6: get_turn_by_turn_directions returns [] for paths of fewer than two
nodes; on longer paths, when it completes, it emits one instruction per path
node, numbered from 1, the first phrased Start, the last Arrive, the
intermediate ones Continue, each annotated with the segment weight found in
the adjacency list; and on the navigator extended with the road (0, 2, 5)
the path [0, 1, 2] yields exactly the three expected lines. -/
theorem C6_directions (nav : GPSNavigator) (path : List Node)
    (ls : List String) (h : get_turn_by_turn_directions nav path = some ls) :
    (path.length < 2 → ls = []) ∧
    (2 ≤ path.length →
      ls.length = path.length ∧
      (∃ a nm, path.head? = some a ∧ lookupName nav a = some nm ∧
        ls.head? = some ("1. Start at " ++ nm)) ∧
      (∀ k a b, path[k]? = some a → path[k + 1]? = some b →
        ∃ w nm, findWeight nav.graph a b = some w ∧
          lookupName nav b = some nm ∧
          ls[k + 1]? = some (toString (k + 2) ++ ". " ++
            (if k + 2 = path.length then "Arrive at " else "Continue to ") ++
            nm ++ " (" ++ fmt1 w ++ "km)"))) ∧
    get_turn_by_turn_directions (add_road (mkNavigator []) 0 2 5) [0, 1, 2] =
      some ["1. Start at Main St & 1st Ave",
        "2. Continue to Park Rd & 2nd Ave (2.1km)",
        "3. Arrive at Oak St & 3rd Ave (1.9km)"] := by
  refine ⟨?_, ?_, ?_⟩
  · intro hlen
    unfold get_turn_by_turn_directions at h
    rw [if_pos hlen] at h
    injection h with h
    exact h.symm
  · intro hlen
    unfold get_turn_by_turn_directions at h
    rw [if_neg (by omega)] at h
    cases path with
    | nil => simp at hlen
    | cons p0 t =>
      cases t with
      | nil => simp at hlen
      | cons p1 rest =>
        have hL : (p0 :: p1 :: rest).length = rest.length + 2 := by simp
        rw [hL, Nat.add_sub_cancel, List.tail_cons, List.zip_cons_cons] at h
        rw [dirGo] at h
        split at h
        case _ => cases h
        case _ w hfw =>
          simp only [eq_self_iff_true, if_true] at h
          split at h
          case _ hmapn =>
            cases h
          case _ sl hsl =>
            rw [Option.map_eq_some'] at hsl
            obtain ⟨nm0, hnm0, hsl2⟩ := hsl
            subst hsl2
            split at h
            case _ => cases h
            case _ nm1 hnm1 =>
              rw [Option.map_eq_some'] at h
              obtain ⟨ls2, hls2, hmap⟩ := h
              have hls : ls = ("1. Start at " ++ nm0) ::
                  (toString (0 + 2) ++ ". " ++
                    (if 0 = rest.length then "Arrive at " else "Continue to ") ++
                    nm1 ++ " (" ++ fmt1 w ++ "km)") :: ls2 := by
                rw [← hmap]
                rfl
              subst hls
              obtain ⟨hlen2, hidx2⟩ :=
                dirGo_spec nav rest.length ((p1 :: rest).zip rest) 1 ls2 hls2
                  (le_refl 1)
              have hzlen : ((p1 :: rest).zip rest).length = rest.length := by
                simp [List.length_zip]
              refine ⟨?_, ⟨p0, nm0, rfl, hnm0, rfl⟩, ?_⟩
              · rw [hL]
                simp [hlen2, hzlen]
              · intro k a b hka hkb
                rw [hL]
                cases k with
                | zero =>
                  rw [List.getElem?_cons_zero] at hka
                  injection hka with hka
                  rw [List.getElem?_cons_succ, List.getElem?_cons_zero] at hkb
                  injection hkb with hkb
                  subst hka
                  subst hkb
                  refine ⟨w, nm1, hfw, hnm1, ?_⟩
                  by_cases hc : (0 : Nat) = rest.length
                  · rw [List.getElem?_cons_succ, List.getElem?_cons_zero,
                      if_pos hc, if_pos (show 0 + 2 = rest.length + 2 from by omega)]
                  · rw [List.getElem?_cons_succ, List.getElem?_cons_zero,
                      if_neg hc, if_neg (show ¬ 0 + 2 = rest.length + 2 from by omega)]
                | succ k2 =>
                  rw [List.getElem?_cons_succ] at hka hkb
                  have hz := zip_tail_getElem (p1 :: rest) k2 a b hka hkb
                  obtain ⟨w2, nmk, hfw2, hnmk, hline⟩ := hidx2 k2 a b hz
                  rw [show 1 + k2 = k2 + 1 from by omega] at hline
                  refine ⟨w2, nmk, hfw2, hnmk, ?_⟩
                  rw [List.getElem?_cons_succ, List.getElem?_cons_succ]
                  by_cases hc : k2 + 1 = rest.length
                  · rw [if_pos hc] at hline
                    rw [if_pos (show k2 + 1 + 2 = rest.length + 2 from by omega)]
                    exact hline
                  · rw [if_neg hc] at hline
                    rw [if_neg (show ¬ k2 + 1 + 2 = rest.length + 2 from by omega)]
                    exact hline
  · rfl

/-- C6 witness: the two-node path [3, 0] on the city map produces exactly
two lines. -/
theorem C6_witness :
    ∃ ls, get_turn_by_turn_directions (mkNavigator []) [3, 0] = some ls ∧
      ls.length = 2 := by
  have h : get_turn_by_turn_directions (mkNavigator []) [3, 0] =
      some ["1. Start at Elm St & 1st Ave",
        "2. Arrive at Main St & 1st Ave (1.2km)"] := rfl
  exact ⟨_, h, ((C6_directions (mkNavigator []) [3, 0] _ h).2.1 (by decide)).1⟩

end GPS
